import Mathlib

/-!
Verification of the mold linker sources (uk0/mold).

Part A embeds the bundled mimalloc allocator's `page-queue.c` (present in
the sources) and proves properties of `mi_bin` and of the page-queue
operations.  Part B models, from the specification, the linker passes whose
implementation files are not part of the sources (symbol resolution,
archive extraction, garbage collection, version scripts, common-symbol
merging, relocatable links and branch thunks) and settles the spec's
claims against those models.

Machine integers are embedded as `Nat`; all sizes handled by the allocator
are `size_t` values and the embedded code paths only ever shift or mask
quantities far below `2^64`, so no wrap-around arises on the embedded
branches.
-/

namespace Mold

/-! ## Part A.1: mi_bin (third-party/mimalloc/src/page-queue.c)

Constants from mimalloc's headers (the headers are not among the sources;
the values are mimalloc's 64-bit defaults: one machine word is 8 bytes,
`MI_MAX_ALIGN_SIZE` is 16 so `MI_ALIGN2W` is in effect, `MI_BIN_HUGE = 73`,
and large objects are at most `2^18` words). -/

def MI_INTPTR_SIZE : Nat := 8

def MI_SIZE_BITS : Nat := 64

def MI_BIN_HUGE : Nat := 73

def MI_BIN_FULL : Nat := MI_BIN_HUGE + 1

def MI_LARGE_MAX_OBJ_WSIZE : Nat := 2 ^ 18

def MI_LARGE_MAX_OBJ_SIZE : Nat := MI_LARGE_MAX_OBJ_WSIZE * MI_INTPTR_SIZE

/-- Modelled from the spec: `_mi_wsize_from_size` is declared in mimalloc's
internal header (not among the sources); it converts a byte size to a size
in machine words, rounding up. -/
def _mi_wsize_from_size (size : Nat) : Nat :=
  (size + MI_INTPTR_SIZE - 1) / MI_INTPTR_SIZE

/-- Fuel-bounded floor of the base-2 logarithm; `log2fuel 64` agrees with
`floor (log2 n)` for every `n < 2^64`, which is how `page-queue.c` uses
`mi_clz` (it is only applied to nonzero `size_t` values). -/
def log2fuel : Nat → Nat → Nat
  | 0, _ => 0
  | fuel + 1, n => if n < 2 then 0 else log2fuel fuel (n / 2) + 1

def floorLog2 (n : Nat) : Nat := log2fuel 64 n

/-- Count of leading zeros of a nonzero 64-bit value, as used by `mi_bin`:
`mi_clz w = 64 - (floorLog2 w + 1)`. -/
def mi_clz (w : Nat) : Nat := 63 - floorLog2 w

/-- Body of `mi_bin` from page-queue.c as a function of the word size
(the `MI_ALIGN2W` configuration, which is the one selected on 64-bit
targets where `MI_MAX_ALIGN_SIZE = 16`).
`(wsize+1) &&& 0xFFFFFFFFFFFFFFFE` is the 64-bit reading of
`(wsize+1) & ~1`. -/
def miBinW (wsize : Nat) : Nat :=
  if wsize ≤ 8 then
    if wsize ≤ 1 then 1 else (wsize + 1) &&& 0xFFFFFFFFFFFFFFFE
  else if wsize > MI_LARGE_MAX_OBJ_WSIZE then
    MI_BIN_HUGE
  else
    let w := wsize - 1
    let b := MI_SIZE_BITS - 1 - mi_clz w
    ((b <<< 2) + ((w >>> (b - 2)) &&& 0x03)) - 3

/-- Embedding of `mi_bin` from page-queue.c: it first converts the byte
size to a word size and then bins the word size. -/
def mi_bin (size : Nat) : Nat :=
  miBinW (_mi_wsize_from_size size)

/-- Embedding of `_mi_bin` from page-queue.c. -/
def _mi_bin (size : Nat) : Nat := mi_bin size

/-! Characterisation of `log2fuel`. -/

theorem log2fuel_spec :
    ∀ fuel n, 1 ≤ n → n < 2 ^ fuel →
      2 ^ log2fuel fuel n ≤ n ∧ n < 2 ^ (log2fuel fuel n + 1) := by
  intro fuel
  induction fuel with
  | zero => intro n h1 h2; omega
  | succ f ih =>
    intro n h1 h2
    by_cases h : n < 2
    · simp only [log2fuel, if_pos h]
      constructor
      · simpa using h1
      · simpa using h
    · simp only [log2fuel, if_neg h]
      have hn2 : 1 ≤ n / 2 := by omega
      have hlt : n / 2 < 2 ^ f := by
        have : n < 2 * 2 ^ f := by
          calc n < 2 ^ (f + 1) := h2
          _ = 2 * 2 ^ f := by ring
        omega
      obtain ⟨hl, hr⟩ := ih (n / 2) hn2 hlt
      constructor
      · calc 2 ^ (log2fuel f (n / 2) + 1) = 2 * 2 ^ log2fuel f (n / 2) := by ring
        _ ≤ 2 * (n / 2) := by omega
        _ ≤ n := by omega
      · calc n < 2 * (n / 2) + 2 := by omega
        _ ≤ 2 * 2 ^ (log2fuel f (n / 2) + 1) := by omega
        _ = 2 ^ (log2fuel f (n / 2) + 1 + 1) := by ring

theorem floorLog2_spec (n : Nat) (h1 : 1 ≤ n) (h2 : n < 2 ^ 64) :
    2 ^ floorLog2 n ≤ n ∧ n < 2 ^ (floorLog2 n + 1) :=
  log2fuel_spec 64 n h1 h2

theorem floorLog2_unique (n b : Nat) (hl : 2 ^ b ≤ n) (hr : n < 2 ^ (b + 1))
    (h64 : n < 2 ^ 64) : floorLog2 n = b := by
  have h1 : 1 ≤ n := le_trans (Nat.one_le_two_pow) hl
  obtain ⟨l, r⟩ := floorLog2_spec n h1 h64
  rcases Nat.lt_trichotomy (floorLog2 n) b with h | h | h
  · exfalso
    have : 2 ^ (floorLog2 n + 1) ≤ 2 ^ b := Nat.pow_le_pow_right (by norm_num) (by omega)
    omega
  · exact h
  · exfalso
    have : 2 ^ (b + 1) ≤ 2 ^ floorLog2 n := Nat.pow_le_pow_right (by norm_num) (by omega)
    omega

/-! Characterisation of the middle branch of `miBinW`. -/

theorem quarter_ge (v b : Nat) (hbl : 2 ^ b ≤ v) (hb2 : 2 ≤ b) :
    4 ≤ v / 2 ^ (b - 2) := by
  have h1 : 2 ^ b / 2 ^ (b - 2) ≤ v / 2 ^ (b - 2) := Nat.div_le_div_right hbl
  have h2 : 2 ^ b / 2 ^ (b - 2) = 2 ^ (b - (b - 2)) := Nat.pow_div (by omega) (by norm_num)
  have h3 : b - (b - 2) = 2 := by omega
  rw [h2, h3] at h1
  simpa using h1

theorem quarter_lt (v b : Nat) (hbr : v < 2 ^ (b + 1)) (hb2 : 2 ≤ b) :
    v / 2 ^ (b - 2) < 8 := by
  rw [Nat.div_lt_iff_lt_mul (Nat.pos_pow_of_pos _ (by norm_num))]
  have h : (8 : Nat) * 2 ^ (b - 2) = 2 ^ (b + 1) := by
    have h3 : b + 1 = 3 + (b - 2) := by omega
    rw [h3, pow_add]
    norm_num
  omega

/-- Value of the middle-branch expression of `mi_bin` in arithmetic form. -/
theorem miBin_mid_expr (v b : Nat) (hb : floorLog2 v = b)
    (hbl : 2 ^ b ≤ v) (hbr : v < 2 ^ (b + 1)) (hb3 : 3 ≤ b) (hb63 : b ≤ 63) :
    (((MI_SIZE_BITS - 1 - mi_clz v) <<< 2) +
        ((v >>> ((MI_SIZE_BITS - 1 - mi_clz v) - 2)) &&& 0x03)) - 3 =
      4 * b + v / 2 ^ (b - 2) - 7 := by
  have hclz : MI_SIZE_BITS - 1 - mi_clz v = b := by
    simp only [mi_clz, MI_SIZE_BITS, hb]
    omega
  rw [hclz, Nat.shiftLeft_eq, Nat.shiftRight_eq_div_pow]
  have hq4 : 4 ≤ v / 2 ^ (b - 2) := quarter_ge v b hbl (by omega)
  have hq8 : v / 2 ^ (b - 2) < 8 := quarter_lt v b hbr (by omega)
  have hand : v / 2 ^ (b - 2) &&& 0x03 = v / 2 ^ (b - 2) - 4 := by
    set q := v / 2 ^ (b - 2) with hq
    interval_cases q <;> decide
  rw [hand]
  omega

theorem floorLog2_ge_three (v : Nat) (hv8 : 8 ≤ v) (hv64 : v < 2 ^ 64) :
    3 ≤ floorLog2 v := by
  obtain ⟨hl, hr⟩ := floorLog2_spec v (by omega) hv64
  by_contra h
  have h8 : (2 : Nat) ^ (floorLog2 v + 1) ≤ 2 ^ 3 := Nat.pow_le_pow_right (by norm_num) (by omega)
  simp at h8
  omega

theorem floorLog2_le_of_lt (v c : Nat) (hv1 : 1 ≤ v) (hv : v < 2 ^ (c + 1))
    (hv64 : v < 2 ^ 64) : floorLog2 v ≤ c := by
  obtain ⟨hl, hr⟩ := floorLog2_spec v hv1 hv64
  by_contra h
  have : (2 : Nat) ^ (c + 1) ≤ 2 ^ floorLog2 v := Nat.pow_le_pow_right (by norm_num) (by omega)
  omega

/-- Value of `miBinW` on the middle branch. -/
theorem miBinW_mid (wsize : Nat) (h9 : 9 ≤ wsize) (hle : wsize ≤ MI_LARGE_MAX_OBJ_WSIZE) :
    miBinW wsize =
      4 * floorLog2 (wsize - 1) +
        (wsize - 1) / 2 ^ (floorLog2 (wsize - 1) - 2) - 7 := by
  have hLM : MI_LARGE_MAX_OBJ_WSIZE = 2 ^ 18 := rfl
  have h64 : (2 : Nat) ^ 18 < 2 ^ 64 := by norm_num
  have hv8 : 8 ≤ wsize - 1 := by omega
  have hv64 : wsize - 1 < 2 ^ 64 := by omega
  have hb3 : 3 ≤ floorLog2 (wsize - 1) := floorLog2_ge_three _ hv8 hv64
  have hb63 : floorLog2 (wsize - 1) ≤ 63 := by
    have := floorLog2_le_of_lt (wsize - 1) 63 (by omega) (by norm_num [hv64]; omega) hv64
    omega
  obtain ⟨hbl, hbr⟩ := floorLog2_spec (wsize - 1) (by omega) hv64
  unfold miBinW
  rw [if_neg (by omega), if_neg (by omega)]
  exact miBin_mid_expr (wsize - 1) (floorLog2 (wsize - 1)) rfl hbl hbr hb3 hb63

/-- Lower and upper bound for the middle branch. -/
theorem miBinW_mid_bounds (wsize : Nat) (h9 : 9 ≤ wsize)
    (hle : wsize ≤ MI_LARGE_MAX_OBJ_WSIZE) :
    9 ≤ miBinW wsize ∧ miBinW wsize ≤ 68 := by
  have hmid := miBinW_mid wsize h9 hle
  have hLM : MI_LARGE_MAX_OBJ_WSIZE = 2 ^ 18 := rfl
  have hv8 : 8 ≤ wsize - 1 := by omega
  have hv64 : wsize - 1 < 2 ^ 64 := by
    have : (2 : Nat) ^ 18 < 2 ^ 64 := by norm_num
    omega
  have hb3 : 3 ≤ floorLog2 (wsize - 1) := floorLog2_ge_three _ hv8 hv64
  have hb17 : floorLog2 (wsize - 1) ≤ 17 := by
    refine floorLog2_le_of_lt (wsize - 1) 17 (by omega) (by omega) hv64
  obtain ⟨hbl, hbr⟩ := floorLog2_spec (wsize - 1) (by omega) hv64
  have hq4 : 4 ≤ (wsize - 1) / 2 ^ (floorLog2 (wsize - 1) - 2) :=
    quarter_ge _ _ hbl (by omega)
  have hq8 : (wsize - 1) / 2 ^ (floorLog2 (wsize - 1) - 2) < 8 :=
    quarter_lt _ _ hbr (by omega)
  omega

theorem miBinW_huge (wsize : Nat) (h : MI_LARGE_MAX_OBJ_WSIZE < wsize) :
    miBinW wsize = MI_BIN_HUGE := by
  have hLM : MI_LARGE_MAX_OBJ_WSIZE = 2 ^ 18 := rfl
  unfold miBinW
  rw [if_neg (by omega), if_pos (by omega)]

theorem miBinW_small_steps : ∀ w < 9, miBinW w ≤ miBinW (w + 1) := by decide

theorem miBinW_le_succ (w : Nat) : miBinW w ≤ miBinW (w + 1) := by
  have hLM : MI_LARGE_MAX_OBJ_WSIZE = 2 ^ 18 := rfl
  by_cases hsmall : w < 9
  · exact miBinW_small_steps w hsmall
  · by_cases hbig : 2 ^ 18 < w
    · rw [miBinW_huge w (by omega), miBinW_huge (w + 1) (by omega)]
    · by_cases htop : w = 2 ^ 18
      · have h1 : miBinW w ≤ 68 := (miBinW_mid_bounds w (by omega) (by omega)).2
        have h2 : miBinW (w + 1) = MI_BIN_HUGE := miBinW_huge (w + 1) (by omega)
        have : MI_BIN_HUGE = 73 := rfl
        omega
      · -- both in the middle branch
        have h9 : 9 ≤ w := by omega
        have hle : w + 1 ≤ MI_LARGE_MAX_OBJ_WSIZE := by omega
        rw [miBinW_mid w h9 (by omega), miBinW_mid (w + 1) (by omega) hle]
        have hv8 : 8 ≤ w - 1 := by omega
        have hv64 : w - 1 < 2 ^ 64 := by
          have : (2 : Nat) ^ 18 < 2 ^ 64 := by norm_num
          omega
        have hw64 : w < 2 ^ 64 := by
          have : (2 : Nat) ^ 18 < 2 ^ 64 := by norm_num
          omega
        obtain ⟨hbl, hbr⟩ := floorLog2_spec (w - 1) (by omega) hv64
        have hb3 : 3 ≤ floorLog2 (w - 1) := floorLog2_ge_three _ hv8 hv64
        have hsucc : w + 1 - 1 = (w - 1) + 1 := by omega
        rw [hsucc]
        rcases Nat.lt_or_ge ((w - 1) + 1) (2 ^ (floorLog2 (w - 1) + 1)) with hc | hc
        · -- same power-of-two interval: same floorLog2, numerator grows
          have heq : floorLog2 ((w - 1) + 1) = floorLog2 (w - 1) :=
            floorLog2_unique _ _ (by omega) hc (by omega)
          rw [heq]
          have hdiv : (w - 1) / 2 ^ (floorLog2 (w - 1) - 2) ≤
              ((w - 1) + 1) / 2 ^ (floorLog2 (w - 1) - 2) :=
            Nat.div_le_div_right (by omega)
          omega
        · -- crossing into the next power of two
          have hceq : (w - 1) + 1 = 2 ^ (floorLog2 (w - 1) + 1) := by omega
          have hlt2 : (w - 1) + 1 < 2 ^ (floorLog2 (w - 1) + 1 + 1) := by
            have : (2 : Nat) ^ (floorLog2 (w - 1) + 1) <
                2 ^ (floorLog2 (w - 1) + 1 + 1) :=
              Nat.pow_lt_pow_right (by norm_num) (by omega)
            omega
          have heq : floorLog2 ((w - 1) + 1) = floorLog2 (w - 1) + 1 :=
            floorLog2_unique _ _ (by omega) hlt2 (by omega)
          rw [heq, hceq]
          have hdiv : 2 ^ (floorLog2 (w - 1) + 1) / 2 ^ (floorLog2 (w - 1) + 1 - 2) =
              2 ^ 2 := by
            rw [Nat.pow_div (by omega) (by norm_num)]
            congr 1
            omega
          rw [hdiv]
          have hq8 : (w - 1) / 2 ^ (floorLog2 (w - 1) - 2) < 8 :=
            quarter_lt _ _ hbr (by omega)
          omega

theorem miBinW_mono : Monotone miBinW :=
  monotone_nat_of_le_succ miBinW_le_succ

theorem miBinW_bounds (w : Nat) : 1 ≤ miBinW w ∧ miBinW w ≤ MI_BIN_HUGE := by
  have hLM : MI_LARGE_MAX_OBJ_WSIZE = 2 ^ 18 := rfl
  have hsmall : ∀ v < 9, 1 ≤ miBinW v ∧ miBinW v ≤ MI_BIN_HUGE := by decide
  by_cases h9 : w < 9
  · exact hsmall w h9
  · by_cases hbig : 2 ^ 18 < w
    · rw [miBinW_huge w (by omega)]
      exact ⟨by norm_num [MI_BIN_HUGE], le_refl _⟩
    · obtain ⟨h1, h2⟩ := miBinW_mid_bounds w (by omega) (by omega)
      have : MI_BIN_HUGE = 73 := rfl
      omega

theorem _mi_wsize_from_size_mono (s1 s2 : Nat) (h : s1 ≤ s2) :
    _mi_wsize_from_size s1 ≤ _mi_wsize_from_size s2 := by
  unfold _mi_wsize_from_size
  exact Nat.div_le_div_right (by omega)

/-- C10: the allocator size-to-bin function `mi_bin` is total, bounded and
monotone: every size gets a bin `b` with `1 ≤ b ≤ MI_BIN_HUGE`; sizes whose
word count exceeds `MI_LARGE_MAX_OBJ_WSIZE` get exactly `MI_BIN_HUGE`; and
`mi_bin` is monotone in the size. -/
theorem mi_bin_total_bounded_monotone :
    (∀ size, 1 ≤ mi_bin size ∧ mi_bin size ≤ MI_BIN_HUGE) ∧
    (∀ size, MI_LARGE_MAX_OBJ_WSIZE < _mi_wsize_from_size size →
      mi_bin size = MI_BIN_HUGE) ∧
    (∀ s1 s2, s1 ≤ s2 → mi_bin s1 ≤ mi_bin s2) := by
  refine ⟨fun size => miBinW_bounds _, fun size h => miBinW_huge _ h, ?_⟩
  intro s1 s2 h
  exact miBinW_mono (_mi_wsize_from_size_mono s1 s2 h)

/-- Witness for C10: concrete instantiation at sizes 24 and 4096. -/
theorem mi_bin_total_bounded_monotone_witness :
    1 ≤ mi_bin 24 ∧ mi_bin 24 ≤ MI_BIN_HUGE ∧ (24 : Nat) ≤ 4096 ∧
      mi_bin 24 ≤ mi_bin 4096 := by
  obtain ⟨hb, _, hm⟩ := mi_bin_total_bounded_monotone
  exact ⟨(hb 24).1, (hb 24).2, by norm_num, hm 24 4096 (by norm_num)⟩

/-! ## Part A.2: page queues (third-party/mimalloc/src/page-queue.c)

A `mi_page_t` is embedded as the record of the fields page-queue.c reads
and writes; pages live in a store indexed by page ids (the C pointers).
`mi_heap_queue_first_update` and the heap's `page_count` maintain the
`pages_free_direct` cache and a statistic, neither of which is inspected
by `_mi_page_queue_is_valid`, so they do not appear in the state. -/

structure Page where
  prev : Option Nat
  next : Option Nat
  block_size : Nat
  in_full : Bool
  is_huge : Bool
  heap : Nat

structure PageQueue where
  first : Option Nat
  last : Option Nat
  block_size : Nat
  count : Nat

/-- Page store: the portion of memory holding the `mi_page_t` structs. -/
def Store : Type := Nat → Page

/-- Pointer write to one page struct. -/
def updPage (s : Store) (i : Nat) (p : Page) : Store :=
  fun j => if j = i then p else s j

/-- Embedding of `mi_page_queue_is_huge`. -/
def mi_page_queue_is_huge (pq : PageQueue) : Bool :=
  pq.block_size == MI_LARGE_MAX_OBJ_SIZE + MI_INTPTR_SIZE

/-- Embedding of `mi_page_queue_is_full`. -/
def mi_page_queue_is_full (pq : PageQueue) : Bool :=
  pq.block_size == MI_LARGE_MAX_OBJ_SIZE + 2 * MI_INTPTR_SIZE

/-- Per-page checks done by the loop body of `_mi_page_queue_is_valid`
apart from the link-structure checks: the block-size discipline
(full pages sit in the queue of sentinel size `MI_LARGE_MAX_OBJ_WSIZE + 2`
words, huge pages in the one of size `MI_LARGE_MAX_OBJ_WSIZE + 1` words,
all others must match the queue's block size exactly) and heap ownership. -/
def pageOk (s : Store) (heap : Nat) (pq : PageQueue) (i : Nat) : Bool :=
  (if (s i).in_full then
    _mi_wsize_from_size pq.block_size == MI_LARGE_MAX_OBJ_WSIZE + 2
   else if (s i).is_huge then
    _mi_wsize_from_size pq.block_size == MI_LARGE_MAX_OBJ_WSIZE + 1
   else
    (s i).block_size == pq.block_size) &&
  ((s i).heap == heap)

/-- Walk of `_mi_page_queue_is_valid`: follow `next` from `cur`, checking
that each page's `prev` equals the previously visited page, the per-page
conditions, and that the page with `next == NULL` is `pq.last`; at the end
the number of visited pages must equal `pq.count`.  The C loop has no fuel;
fuel `pq.count + 1` is enough for every list the check accepts, and a
longer or cyclic chain is rejected just as the C assertion on the count
would fire. -/
def validFrom (s : Store) (heap : Nat) (pq : PageQueue) :
    Nat → Option Nat → Option Nat → Nat → Bool
  | _, none, _, cnt => cnt == pq.count
  | 0, some _, _, _ => false
  | fuel + 1, some i, prev, cnt =>
    ((s i).prev == prev) && pageOk s heap pq i &&
    (match (s i).next with
     | none => pq.last == some i
     | some _ => true) &&
    validFrom s heap pq fuel (s i).next (some i) (cnt + 1)

/-- Embedding of `_mi_page_queue_is_valid` from page-queue.c. -/
def _mi_page_queue_is_valid (s : Store) (heap : Nat) (pq : PageQueue) : Bool :=
  validFrom s heap pq (pq.count + 1) pq.first none 0

/-- Walk of `mi_page_queue_contains` (the debug helper page-queue.c asserts
with): follow `next` from `cur` looking for `pid`. -/
def containsFrom (s : Store) : Nat → Option Nat → Nat → Bool
  | _, none, _ => false
  | 0, some _, _ => false
  | fuel + 1, some i, pid =>
    if i = pid then true else containsFrom s fuel (s i).next pid

/-- Embedding of `mi_page_queue_contains` from page-queue.c. -/
def mi_page_queue_contains (s : Store) (pq : PageQueue) (pid : Nat) : Bool :=
  containsFrom s (pq.count + 1) pq.first pid

/-- Embedding of `mi_page_queue_push` from page-queue.c.  The two heap-cache
updates (`mi_heap_queue_first_update`, `heap->page_count++`) touch state the
queue invariant does not inspect and are omitted from the state. -/
def mi_page_queue_push (pq : PageQueue) (s : Store) (pid : Nat) :
    Store × PageQueue :=
  -- mi_page_set_in_full(page, mi_page_queue_is_full(queue));
  let s := updPage s pid { s pid with in_full := mi_page_queue_is_full pq }
  -- page->next = queue->first; page->prev = NULL;
  let s := updPage s pid { s pid with next := pq.first, prev := none }
  match pq.first with
  | some f =>
    -- queue->first->prev = page; queue->first = page;
    let s := updPage s f { s f with prev := some pid }
    (s, { pq with first := some pid, count := pq.count + 1 })
  | none =>
    -- queue->first = queue->last = page;
    (s, { pq with first := some pid, last := some pid, count := pq.count + 1 })

/-- Embedding of `mi_page_queue_push_at_end` from page-queue.c. -/
def mi_page_queue_push_at_end (pq : PageQueue) (s : Store) (pid : Nat) :
    Store × PageQueue :=
  let s := updPage s pid { s pid with in_full := mi_page_queue_is_full pq }
  -- page->prev = queue->last; page->next = NULL;
  let s := updPage s pid { s pid with prev := pq.last, next := none }
  match pq.last with
  | some lst =>
    -- queue->last->next = page; queue->last = page;
    let s := updPage s lst { s lst with next := some pid }
    (s, { pq with last := some pid, count := pq.count + 1 })
  | none =>
    (s, { pq with first := some pid, last := some pid, count := pq.count + 1 })

/-- Embedding of `mi_page_queue_remove` from page-queue.c.  Pointer reads
follow the C statement order (each read sees the preceding writes). -/
def mi_page_queue_remove (pq : PageQueue) (s : Store) (pid : Nat) :
    Store × PageQueue :=
  -- if (page->prev != NULL) page->prev->next = page->next;
  let s :=
    match (s pid).prev with
    | some pr => updPage s pr { s pr with next := (s pid).next }
    | none => s
  -- if (page->next != NULL) page->next->prev = page->prev;
  let s :=
    match (s pid).next with
    | some nx => updPage s nx { s nx with prev := (s pid).prev }
    | none => s
  -- if (page == queue->last) queue->last = page->prev;
  let pq := if pq.last = some pid then { pq with last := (s pid).prev } else pq
  -- if (page == queue->first) queue->first = page->next;
  let pq := if pq.first = some pid then { pq with first := (s pid).next } else pq
  -- queue->count--;
  let pq := { pq with count := pq.count - 1 }
  -- page->next = NULL; page->prev = NULL; mi_page_set_in_full(page, false);
  let s := updPage s pid { s pid with next := none, prev := none, in_full := false }
  (s, pq)

/-- Ids of the pages on the chain from `cur`, following `next` (the
iteration of the `for` loop in `_mi_page_queue_append`); the loop has no
fuel in C and `append.count + 1` covers every valid chain. -/
def chainIds (s : Store) : Nat → Option Nat → List Nat
  | 0, _ => []
  | _, none => []
  | fuel + 1, some i => i :: chainIds s fuel (s i).next

/-- Retarget the `heap` field of the listed pages
(`mi_page_set_heap(page, heap)` applied along the chain). -/
def setHeapAll (s : Store) (ids : List Nat) (heap : Nat) : Store :=
  match ids with
  | [] => s
  | i :: is => setHeapAll (updPage s i { s i with heap := heap }) is heap

/-- Embedding of `_mi_page_queue_append` from page-queue.c; returns the new
store, the new `pq` and the returned member count. -/
def _mi_page_queue_append (heap : Nat) (pq append : PageQueue) (s : Store) :
    Store × PageQueue × Nat :=
  match append.first with
  | none => (s, pq, 0)
  | some af =>
    -- for (page = append->first; page != NULL; page = page->next)
    --   mi_page_set_heap(page, heap);
    let ids := chainIds s (append.count + 1) (some af)
    let s := setHeapAll s ids heap
    match pq.last with
    | none =>
      -- take over afresh
      (s, { pq with first := some af, last := append.last,
                    count := pq.count + append.count }, ids.length)
    | some lst =>
      -- append to end
      let s := updPage s lst { s lst with next := some af }
      let s := updPage s af { s af with prev := some lst }
      (s, { pq with last := append.last,
                    count := pq.count + append.count }, ids.length)

/-! Representation of a page queue as the list of page ids on its chain. -/

/-- `dllSeg s prev cur l e`: starting at pointer `cur`, whose predecessor is
`prev`, the chain of `next` pointers runs exactly through the pages listed
in `l`, each page's `prev` pointing at its predecessor, and ends at the
pointer `e`. -/
def dllSeg (s : Store) : Option Nat → Option Nat → List Nat → Option Nat → Prop
  | _, cur, [], e => cur = e
  | prev, cur, i :: l, e =>
    cur = some i ∧ (s i).prev = prev ∧ dllSeg s (some i) (s i).next l e

/-- The id of the last page of `l`, or `p` if `l` is empty: the `prev`
pointer expected by whatever follows `l` on a chain entered with `prev = p`. -/
def lastOr (l : List Nat) (p : Option Nat) : Option Nat :=
  match l.getLast? with
  | some x => some x
  | none => p

/-- The check `_mi_page_queue_is_valid` makes on `pq.last`: the page whose
`next` is null — the last page of the chain — must be `pq.last` (for the
empty chain the check does not look at `pq.last`). -/
def lastCond (pq : PageQueue) (l : List Nat) : Prop :=
  ∀ i, l.getLast? = some i → pq.last = some i

/-- Full queue representation: `l` lists the pages reachable from
`pq.first`, doubly linked, `pq.count` counts them, each page passes the
per-page checks, and a nonempty chain ends at `pq.last`. -/
def QueueRep (s : Store) (heap : Nat) (pq : PageQueue) (l : List Nat) : Prop :=
  dllSeg s none pq.first l none ∧
  l.Nodup ∧
  pq.count = l.length ∧
  (∀ i ∈ l, pageOk s heap pq i = true) ∧
  lastCond pq l

theorem dllSeg_nil (s : Store) (p c e : Option Nat) :
    dllSeg s p c [] e ↔ c = e := Iff.rfl

theorem dllSeg_cons (s : Store) (p c e : Option Nat) (i : Nat) (l : List Nat) :
    dllSeg s p c (i :: l) e ↔
      c = some i ∧ (s i).prev = p ∧ dllSeg s (some i) (s i).next l e := Iff.rfl

theorem lastOr_nil (p : Option Nat) : lastOr [] p = p := rfl

theorem lastOr_cons (i : Nat) (l : List Nat) (p : Option Nat) :
    lastOr (i :: l) p = lastOr l (some i) := by
  cases l with
  | nil => rfl
  | cons j t =>
    unfold lastOr
    rw [List.getLast?_cons_cons]
    cases h : (j :: t).getLast? with
    | some x => rfl
    | none => simp [List.getLast?] at h

theorem lastOr_none_eq (l : List Nat) : lastOr l none = l.getLast? := by
  unfold lastOr
  cases l.getLast? <;> rfl

/-- Chains only read the link fields of their own members. -/
theorem dllSeg_congr (s s' : Store) :
    ∀ (l : List Nat) (p c e : Option Nat),
      (∀ x ∈ l, (s' x).prev = (s x).prev ∧ (s' x).next = (s x).next) →
      dllSeg s p c l e → dllSeg s' p c l e := by
  intro l
  induction l with
  | nil => intro p c e _ h; exact h
  | cons i t ih =>
    intro p c e hfields h
    obtain ⟨hc, hp, ht⟩ := h
    obtain ⟨hip, hin⟩ := hfields i (by simp)
    refine ⟨hc, by rw [hip, hp], ?_⟩
    rw [hin]
    exact ih (some i) (s i).next e (fun x hx => hfields x (by simp [hx])) ht

/-- A chain from a given pointer that terminates in `none` is unique. -/
theorem dllSeg_deterministic (s : Store) :
    ∀ (l l' : List Nat) (c p p' : Option Nat),
      dllSeg s p c l none → dllSeg s p' c l' none → l = l' := by
  intro l
  induction l with
  | nil =>
    intro l' c p p' h h'
    cases l' with
    | nil => rfl
    | cons j t =>
      exfalso
      obtain ⟨hc, _, _⟩ := h'
      rw [dllSeg_nil] at h
      rw [h] at hc
      exact Option.noConfusion hc
  | cons i t ih =>
    intro l' c p p' h h'
    obtain ⟨hc, _, ht⟩ := h
    cases l' with
    | nil =>
      exfalso
      rw [dllSeg_nil] at h'
      rw [h'] at hc
      exact Option.noConfusion hc
    | cons j t' =>
      obtain ⟨hc', _, ht'⟩ := h'
      rw [hc] at hc'
      injection hc' with h0
      subst h0
      rw [ih t' (s i).next (some i) (some i) ht ht']

/-- Splitting a chain along a list split. -/
theorem dllSeg_append_split (s : Store) :
    ∀ (l1 l2 : List Nat) (p c e : Option Nat),
      dllSeg s p c (l1 ++ l2) e →
      ∃ c2, dllSeg s p c l1 c2 ∧ dllSeg s (lastOr l1 p) c2 l2 e := by
  intro l1
  induction l1 with
  | nil =>
    intro l2 p c e h
    exact ⟨c, rfl, by rw [lastOr_nil]; exact h⟩
  | cons i t ih =>
    intro l2 p c e h
    obtain ⟨hc, hp, ht⟩ := h
    obtain ⟨c2, h1, h2⟩ := ih l2 (some i) (s i).next e ht
    exact ⟨c2, ⟨hc, hp, h1⟩, by rw [lastOr_cons]; exact h2⟩

/-- Composing two chains. -/
theorem dllSeg_append_compose (s : Store) :
    ∀ (l1 l2 : List Nat) (p c c2 e : Option Nat),
      dllSeg s p c l1 c2 → dllSeg s (lastOr l1 p) c2 l2 e →
      dllSeg s p c (l1 ++ l2) e := by
  intro l1
  induction l1 with
  | nil =>
    intro l2 p c c2 e h1 h2
    rw [dllSeg_nil] at h1
    rw [lastOr_nil] at h2
    rw [List.nil_append, h1]
    exact h2
  | cons i t ih =>
    intro l2 p c c2 e h1 h2
    obtain ⟨hc, hp, ht⟩ := h1
    rw [lastOr_cons] at h2
    exact ⟨hc, hp, ih l2 (some i) (s i).next c2 e ht h2⟩

/-- A terminated chain visits each page at most once. -/
theorem dllSeg_nodup (s : Store) :
    ∀ (l : List Nat) (p c : Option Nat), dllSeg s p c l none → l.Nodup := by
  intro l
  induction l with
  | nil => intro _ _ _; exact List.nodup_nil
  | cons i t ih =>
    intro p c h
    obtain ⟨hc, hp, ht⟩ := h
    refine List.nodup_cons.mpr ⟨?_, ih (some i) (s i).next ht⟩
    intro hmem
    obtain ⟨t1, t2, rfl⟩ := List.append_of_mem hmem
    obtain ⟨c2, hseg1, hseg2⟩ := dllSeg_append_split s t1 (i :: t2) (some i) (s i).next none ht
    have hc2 : c2 = some i := hseg2.1
    rw [hc2] at hseg2
    have hfull : dllSeg s p (some i) (i :: (t1 ++ i :: t2)) none := ⟨rfl, hp, ht⟩
    have huniq := dllSeg_deterministic s (i :: (t1 ++ i :: t2)) (i :: t2) (some i) p
      (lastOr t1 (some i)) hfull hseg2
    have hlen := congrArg List.length huniq
    simp at hlen
    omega

theorem dllSeg_start_none (s : Store) (p : Option Nat) (l : List Nat)
    (h : dllSeg s p none l none) : l = [] := by
  cases l with
  | nil => rfl
  | cons i t => exact absurd h.1 (by simp)

theorem lastCond_tail (pq : PageQueue) (i : Nat) (t : List Nat)
    (h : lastCond pq (i :: t)) : lastCond pq t := by
  intro x hx
  apply h
  cases t with
  | nil => exact absurd hx (by simp)
  | cons j t' => rw [List.getLast?_cons_cons]; exact hx

/-! Correspondence between the executable checker `_mi_page_queue_is_valid`
and the representation `QueueRep`. -/

theorem containsFrom_iff (s : Store) (pid : Nat) :
    ∀ (l : List Nat) (fuel : Nat) (p c : Option Nat),
      dllSeg s p c l none → l.length < fuel →
      (containsFrom s fuel c pid = true ↔ pid ∈ l) := by
  intro l
  induction l with
  | nil =>
    intro fuel p c h _
    rw [dllSeg_nil] at h
    subst h
    cases fuel <;> simp [containsFrom]
  | cons i t ih =>
    intro fuel p c h hf
    obtain ⟨hc, hp, ht⟩ := h
    subst hc
    cases fuel with
    | zero => exact absurd hf (by simp)
    | succ f =>
      simp only [containsFrom]
      by_cases hip : i = pid
      · subst hip
        simp
      · rw [if_neg hip]
        rw [ih f (some i) (s i).next ht (by simp at hf; omega)]
        constructor
        · exact fun h => List.mem_cons_of_mem i h
        · intro h
          rcases List.mem_cons.mp h with h | h
          · exact absurd h.symm hip
          · exact h

theorem contains_iff_mem (s : Store) (heap : Nat) (pq : PageQueue) (l : List Nat)
    (hrep : QueueRep s heap pq l) (pid : Nat) :
    mi_page_queue_contains s pq pid = true ↔ pid ∈ l := by
  obtain ⟨hdll, _, hcount, _, _⟩ := hrep
  exact containsFrom_iff s pid l (pq.count + 1) none pq.first hdll (by omega)

theorem validFrom_sound (s : Store) (heap : Nat) (pq : PageQueue) :
    ∀ (fuel : Nat) (c p : Option Nat) (cnt : Nat),
      validFrom s heap pq fuel c p cnt = true →
      ∃ l, dllSeg s p c l none ∧ cnt + l.length = pq.count ∧
        (∀ i ∈ l, pageOk s heap pq i = true) ∧ lastCond pq l := by
  intro fuel
  induction fuel with
  | zero =>
    intro c p cnt h
    cases c with
    | none =>
      refine ⟨[], rfl, ?_, by simp, by intro x hx; exact absurd hx (by simp)⟩
      simp [validFrom] at h
      simpa using h
    | some i => simp [validFrom] at h
  | succ f ih =>
    intro c p cnt h
    cases c with
    | none =>
      refine ⟨[], rfl, ?_, by simp, by intro x hx; exact absurd hx (by simp)⟩
      simp [validFrom] at h
      simpa using h
    | some i =>
      simp only [validFrom, Bool.and_eq_true] at h
      obtain ⟨⟨⟨hprev, hok⟩, hlast⟩, hrec⟩ := h
      obtain ⟨l', hdll, hcnt, hokall, hlastc⟩ := ih (s i).next (some i) (cnt + 1) hrec
      refine ⟨i :: l', ⟨rfl, by simpa using hprev, hdll⟩, by simp; omega, ?_, ?_⟩
      · intro j hj
        rcases List.mem_cons.mp hj with rfl | hj
        · exact hok
        · exact hokall j hj
      · cases hl' : l' with
        | nil =>
          subst hl'
          have hnext : (s i).next = none := hdll
          rw [hnext] at hlast
          intro x hx
          simp at hx
          subst hx
          simpa using hlast
        | cons j t =>
          subst hl'
          intro x hx
          rw [List.getLast?_cons_cons] at hx
          exact hlastc x hx

theorem validFrom_complete (s : Store) (heap : Nat) (pq : PageQueue) :
    ∀ (l : List Nat) (p c : Option Nat) (cnt fuel : Nat),
      dllSeg s p c l none →
      (∀ i ∈ l, pageOk s heap pq i = true) →
      lastCond pq l →
      cnt + l.length = pq.count →
      l.length < fuel →
      validFrom s heap pq fuel c p cnt = true := by
  intro l
  induction l with
  | nil =>
    intro p c cnt fuel h _ _ hcnt _
    rw [dllSeg_nil] at h
    subst h
    simp at hcnt
    cases fuel with
    | zero => simp [validFrom]; omega
    | succ f => simp [validFrom]; omega
  | cons i t ih =>
    intro p c cnt fuel h hok hlast hcnt hf
    obtain ⟨hc, hp, ht⟩ := h
    subst hc
    cases fuel with
    | zero => exact absurd hf (by simp)
    | succ f =>
      simp only [validFrom, Bool.and_eq_true]
      refine ⟨⟨⟨by simp [hp], hok i (by simp)⟩, ?_⟩, ?_⟩
      · cases hn : (s i).next with
        | none =>
          rw [hn] at ht
          have ht0 := dllSeg_start_none s (some i) t ht
          subst ht0
          have := hlast i (by simp)
          simp [this]
        | some nx => rfl
      · exact ih (some i) (s i).next (cnt + 1) f ht
          (fun j hj => hok j (List.mem_cons_of_mem i hj))
          (lastCond_tail pq i t hlast)
          (by simp at hcnt ⊢; omega)
          (by simp at hf; omega)

theorem valid_of_rep (s : Store) (heap : Nat) (pq : PageQueue) (l : List Nat)
    (hrep : QueueRep s heap pq l) : _mi_page_queue_is_valid s heap pq = true := by
  obtain ⟨hdll, _, hcount, hok, hlast⟩ := hrep
  exact validFrom_complete s heap pq l none pq.first 0 (pq.count + 1)
    hdll hok hlast (by omega) (by omega)

theorem rep_of_valid (s : Store) (heap : Nat) (pq : PageQueue)
    (hv : _mi_page_queue_is_valid s heap pq = true) :
    ∃ l, QueueRep s heap pq l := by
  obtain ⟨l, hdll, hcnt, hok, hlast⟩ :=
    validFrom_sound s heap pq (pq.count + 1) pq.first none 0 hv
  exact ⟨l, hdll, dllSeg_nodup s l none pq.first hdll, by omega, hok, hlast⟩

/-! Helpers about `updPage` and `pageOk`. -/

theorem updPage_self (s : Store) (i : Nat) (p : Page) : updPage s i p i = p := by
  unfold updPage
  rw [if_pos rfl]

theorem updPage_other (s : Store) (i j : Nat) (p : Page) (h : j ≠ i) :
    updPage s i p j = s j := by
  unfold updPage
  rw [if_neg h]

theorem updPage_updPage_same (s : Store) (i : Nat) (p q : Page) :
    updPage (updPage s i p) i q = updPage s i q := by
  funext j
  unfold updPage
  by_cases h : j = i <;> simp [h]

theorem pageOk_congr (s s' : Store) (heap : Nat) (pq pq' : PageQueue) (i : Nat)
    (hfull : (s' i).in_full = (s i).in_full)
    (hhuge : (s' i).is_huge = (s i).is_huge)
    (hbs : (s' i).block_size = (s i).block_size)
    (hheap : (s' i).heap = (s i).heap)
    (hq : pq'.block_size = pq.block_size) :
    pageOk s' heap pq' i = pageOk s heap pq i := by
  unfold pageOk
  rw [hfull, hhuge, hbs, hheap, hq]

theorem wsize_full_sentinel :
    _mi_wsize_from_size (MI_LARGE_MAX_OBJ_SIZE + 2 * MI_INTPTR_SIZE) =
      MI_LARGE_MAX_OBJ_WSIZE + 2 := by decide

theorem wsize_huge_sentinel :
    _mi_wsize_from_size (MI_LARGE_MAX_OBJ_SIZE + MI_INTPTR_SIZE) =
      MI_LARGE_MAX_OBJ_WSIZE + 1 := by decide

/-- The preconditions under which `mi_page_queue_of` selects a queue for a
page guarantee the per-page check after `mi_page_set_in_full(page,
mi_page_queue_is_full(queue))`. -/
theorem pageOk_pushed (s : Store) (heap : Nat) (pq pq' : PageQueue) (pid : Nat)
    (hq : pq'.block_size = pq.block_size)
    (hfull : (s pid).in_full = mi_page_queue_is_full pq)
    (hheap : (s pid).heap = heap)
    (hpre : ((s pid).is_huge = false ∧ (s pid).block_size = pq.block_size) ∨
            ((s pid).is_huge = true ∧ mi_page_queue_is_huge pq = true) ∨
            mi_page_queue_is_full pq = true) :
    pageOk s heap pq' pid = true := by
  unfold pageOk
  rw [hq, hfull, hheap]
  by_cases hf : mi_page_queue_is_full pq = true
  · have hbs : pq.block_size = MI_LARGE_MAX_OBJ_SIZE + 2 * MI_INTPTR_SIZE := by
      have h2 := hf
      unfold mi_page_queue_is_full at h2
      exact beq_iff_eq.mp h2
    rw [hf, if_pos rfl, hbs, wsize_full_sentinel]
    simp
  · have hf' : mi_page_queue_is_full pq = false := Bool.eq_false_iff.mpr hf
    rw [hf']
    rw [if_neg (by simp)]
    rcases hpre with ⟨hh, hb⟩ | ⟨hh, hqh⟩ | hcontra
    · rw [hh, if_neg (by simp), hb]
      simp
    · have hbs : pq.block_size = MI_LARGE_MAX_OBJ_SIZE + MI_INTPTR_SIZE := by
        unfold mi_page_queue_is_huge at hqh
        exact beq_iff_eq.mp hqh
      rw [hh, if_pos rfl, hbs, wsize_huge_sentinel]
      simp
    · exact absurd hcontra hf

/-- Retarget the head of a chain: only its `prev` changes. -/
theorem dllSeg_retarget_head (s s' : Store) (x : Nat) (t : List Nat)
    (p p' c e : Option Nat)
    (h : dllSeg s p c (x :: t) e)
    (hxn : (s' x).next = (s x).next) (hxp : (s' x).prev = p')
    (ht : ∀ y ∈ t, (s' y).prev = (s y).prev ∧ (s' y).next = (s y).next) :
    dllSeg s' p' c (x :: t) e := by
  obtain ⟨hc, _, htail⟩ := h
  refine ⟨hc, hxp, ?_⟩
  rw [hxn]
  exact dllSeg_congr s s' t (some x) (s x).next e ht htail

/-- Retarget the end of a chain: only the last page's `next` changes. -/
theorem dllSeg_retarget_last (s s' : Store) :
    ∀ (l : List Nat) (lst : Nat) (p c e' : Option Nat),
      dllSeg s p c (l ++ [lst]) none →
      (∀ y ∈ l, (s' y).prev = (s y).prev ∧ (s' y).next = (s y).next) →
      (s' lst).prev = (s lst).prev →
      (s' lst).next = e' →
      dllSeg s' p c (l ++ [lst]) e' := by
  intro l
  induction l with
  | nil =>
    intro lst p c e' h _ hp hn
    obtain ⟨hc, hpr, _⟩ := h
    refine ⟨hc, by rw [hp]; exact hpr, ?_⟩
    rw [dllSeg_nil]
    exact hn
  | cons y t ih =>
    intro lst p c e' h hfields hp hn
    obtain ⟨hc, hpr, htail⟩ := h
    obtain ⟨hyp, hyn⟩ := hfields y (by simp)
    refine ⟨hc, by rw [hyp]; exact hpr, ?_⟩
    rw [hyn]
    exact ih lst (some y) (s y).next e' htail
      (fun z hz => hfields z (by simp [hz])) hp hn

theorem getLast?_cons_ex (i : Nat) (t : List Nat) :
    ∃ x, (i :: t).getLast? = some x := by
  induction t generalizing i with
  | nil => exact ⟨i, rfl⟩
  | cons j t ih =>
    obtain ⟨x, hx⟩ := ih j
    exact ⟨x, by rw [List.getLast?_cons_cons]; exact hx⟩

theorem mem_of_getLast? (l : List Nat) (x : Nat) (h : l.getLast? = some x) :
    x ∈ l := by
  induction l with
  | nil => exact absurd h (by simp)
  | cons i t ih =>
    cases t with
    | nil =>
      simp at h
      subst h
      exact List.mem_cons_self i []
    | cons j t' =>
      rw [List.getLast?_cons_cons] at h
      exact List.mem_cons_of_mem i (ih h)

/-- Retarget the end of a chain: only the final page's `next` changes. -/
theorem dllSeg_set_end (s s' : Store) :
    ∀ (l : List Nat) (p c e0 e' : Option Nat) (lst : Nat),
      dllSeg s p c l e0 → l.Nodup → l.getLast? = some lst →
      (∀ y ∈ l, y ≠ lst →
        (s' y).prev = (s y).prev ∧ (s' y).next = (s y).next) →
      (s' lst).prev = (s lst).prev → (s' lst).next = e' →
      dllSeg s' p c l e' := by
  intro l
  induction l with
  | nil => intro p c e0 e' lst _ _ hl; exact absurd hl (by simp)
  | cons y t ih =>
    intro p c e0 e' lst h hnd hl hfields hp hn
    obtain ⟨hc, hpr, htail⟩ := h
    cases t with
    | nil =>
      simp at hl
      subst hl
      refine ⟨hc, by rw [hp]; exact hpr, ?_⟩
      rw [dllSeg_nil, hn]
    | cons j t' =>
      rw [List.getLast?_cons_cons] at hl
      have hlst_mem : lst ∈ j :: t' := mem_of_getLast? _ _ hl
      have hynlst : y ≠ lst := by
        intro h0
        exact (List.nodup_cons.mp hnd).1 (h0 ▸ hlst_mem)
      obtain ⟨hyp, hyn⟩ := hfields y (by simp) hynlst
      refine ⟨hc, by rw [hyp]; exact hpr, ?_⟩
      rw [hyn]
      exact ih (some y) (s y).next e0 e' lst htail (List.nodup_cons.mp hnd).2 hl
        (fun z hz => hfields z (by simp [hz])) hp hn

/-! Preservation of the queue invariant by `mi_page_queue_push`. -/

theorem mi_page_queue_push_preserves (s : Store) (heap : Nat) (pq : PageQueue)
    (pid : Nat)
    (hv : _mi_page_queue_is_valid s heap pq = true)
    (hnotin : mi_page_queue_contains s pq pid = false)
    (hheap : (s pid).heap = heap)
    (hpre : ((s pid).is_huge = false ∧ (s pid).block_size = pq.block_size) ∨
            ((s pid).is_huge = true ∧ mi_page_queue_is_huge pq = true) ∨
            mi_page_queue_is_full pq = true) :
    _mi_page_queue_is_valid (mi_page_queue_push pq s pid).1 heap
      (mi_page_queue_push pq s pid).2 = true := by
  obtain ⟨l, hrep⟩ := rep_of_valid s heap pq hv
  have hmem : pid ∉ l := by
    intro hmem
    rw [← contains_iff_mem s heap pq l hrep pid] at hmem
    rw [hnotin] at hmem
    exact Bool.noConfusion hmem
  obtain ⟨hdll, hnd, hcount, hok, hlast⟩ := hrep
  obtain ⟨qf, ql, qbs, qc⟩ := pq
  simp only at hdll hcount hok hlast hpre hnotin hv ⊢
  cases qf with
  | none =>
    have hl0 : l = [] := dllSeg_start_none s none l hdll
    subst hl0
    simp only [List.length_nil] at hcount
    apply valid_of_rep _ heap _ [pid]
    refine ⟨⟨rfl, ?_, ?_⟩, List.nodup_singleton pid,
      by simp [mi_page_queue_push, hcount], ?_, ?_⟩
    · simp [mi_page_queue_push, updPage_self, updPage_updPage_same]
    · simp [mi_page_queue_push, updPage_self, updPage_updPage_same, dllSeg_nil]
    · intro j hj
      rcases List.mem_singleton.mp hj with rfl
      apply pageOk_pushed _ heap ⟨none, ql, qbs, qc⟩ _ j rfl
      · simp [mi_page_queue_push, updPage_self, updPage_updPage_same,
          mi_page_queue_is_full]
      · simp [mi_page_queue_push, updPage_self, updPage_updPage_same, hheap]
      · simpa [mi_page_queue_push, updPage_self, updPage_updPage_same]
          using hpre
    · intro x hx
      simp at hx
      subst hx
      rfl
  | some f =>
    cases l with
    | nil =>
      have h0 : some f = none := hdll
      exact Option.noConfusion h0
    | cons i t =>
      have hfi : f = i := by
        have h0 : some f = some i := hdll.1
        injection h0 with h0
      subst hfi
      have hpf : pid ≠ f := by
        intro h
        exact hmem (h ▸ List.mem_cons_self f t)
      have hpt : pid ∉ t := fun h => hmem (List.mem_cons_of_mem f h)
      apply valid_of_rep _ heap _ (pid :: f :: t)
      have hs2f : (mi_page_queue_push ⟨some f, ql, qbs, qc⟩ s pid).1 f =
          { s f with prev := some pid } := by
        simp [mi_page_queue_push, updPage_self, updPage_updPage_same,
          updPage_other, hpf, Ne.symm hpf]
      have hs2pid : (mi_page_queue_push ⟨some f, ql, qbs, qc⟩ s pid).1 pid =
          { s pid with
              in_full := mi_page_queue_is_full ⟨some f, ql, qbs, qc⟩
              next := some f
              prev := none } := by
        simp [mi_page_queue_push, updPage_self, updPage_updPage_same,
          updPage_other, hpf]
      have hs2other : ∀ x, x ≠ pid → x ≠ f →
          (mi_page_queue_push ⟨some f, ql, qbs, qc⟩ s pid).1 x = s x := by
        intro x hx1 hx2
        simp [mi_page_queue_push, updPage_other, hx1, hx2]
      have hndt : (f :: t).Nodup := hnd
      have hfnt : f ∉ t := (List.nodup_cons.mp hndt).1
      refine ⟨⟨rfl, by rw [hs2pid], ?_⟩, ?_, ?_, ?_, ?_⟩
      · rw [hs2pid]
        show dllSeg _ (some pid) (some f) (f :: t) none
        apply dllSeg_retarget_head s _ f t none (some pid) (some f) none hdll
        · rw [hs2f]
        · rw [hs2f]
        · intro y hy
          rw [hs2other y (fun h => hpt (h ▸ hy)) (fun h => hfnt (h ▸ hy))]
          exact ⟨rfl, rfl⟩
      · exact List.nodup_cons.mpr ⟨hmem, hndt⟩
      · simp [mi_page_queue_push] at hcount ⊢
        omega
      · intro j hj
        rcases List.mem_cons.mp hj with rfl | hj
        · apply pageOk_pushed _ heap ⟨some f, ql, qbs, qc⟩ _ j rfl
          · rw [hs2pid]
          · rw [hs2pid]
            exact hheap
          · rw [hs2pid]
            exact hpre
        · have hjl : j ∈ f :: t := hj
          have hokj := hok j hjl
          have hfields : (mi_page_queue_push ⟨some f, ql, qbs, qc⟩ s pid).1 j = s j ∨
              (mi_page_queue_push ⟨some f, ql, qbs, qc⟩ s pid).1 j =
                { s j with prev := some pid } := by
            by_cases hjf : j = f
            · subst hjf
              exact Or.inr hs2f
            · exact Or.inl (hs2other j (fun h => hmem (h ▸ hjl)) hjf)
          have hcongr : pageOk (mi_page_queue_push ⟨some f, ql, qbs, qc⟩ s pid).1 heap
              (mi_page_queue_push ⟨some f, ql, qbs, qc⟩ s pid).2 j =
              pageOk s heap ⟨some f, ql, qbs, qc⟩ j := by
            rcases hfields with heq | heq <;>
              exact pageOk_congr s _ heap ⟨some f, ql, qbs, qc⟩ _ j
                (by rw [heq]) (by rw [heq]) (by rw [heq]) (by rw [heq]) rfl
          rw [hcongr]
          exact hokj
      · intro x hx
        rw [List.getLast?_cons_cons] at hx
        exact hlast x hx

/-! Preservation of the queue invariant by `mi_page_queue_push_at_end`.
The hypothesis `hcoh` (an empty queue has a null `last`) holds for every
queue the allocator ever builds — queues start out with both ends null and
the operations keep them in step — but is not itself part of what
`_mi_page_queue_is_valid` checks on an empty queue, so it is assumed. -/

theorem mi_page_queue_push_at_end_preserves (s : Store) (heap : Nat)
    (pq : PageQueue) (pid : Nat)
    (hv : _mi_page_queue_is_valid s heap pq = true)
    (hnotin : mi_page_queue_contains s pq pid = false)
    (hheap : (s pid).heap = heap)
    (hcoh : pq.first = none → pq.last = none)
    (hpre : ((s pid).is_huge = false ∧ (s pid).block_size = pq.block_size) ∨
            ((s pid).is_huge = true ∧ mi_page_queue_is_huge pq = true) ∨
            mi_page_queue_is_full pq = true) :
    _mi_page_queue_is_valid (mi_page_queue_push_at_end pq s pid).1 heap
      (mi_page_queue_push_at_end pq s pid).2 = true := by
  obtain ⟨l, hrep⟩ := rep_of_valid s heap pq hv
  have hmem : pid ∉ l := by
    intro hmem
    rw [← contains_iff_mem s heap pq l hrep pid] at hmem
    rw [hnotin] at hmem
    exact Bool.noConfusion hmem
  obtain ⟨hdll, hnd, hcount, hok, hlast⟩ := hrep
  obtain ⟨qf, ql, qbs, qc⟩ := pq
  simp only at hdll hcount hok hlast hpre hcoh ⊢
  cases ql with
  | none =>
    have hl0 : l = [] := by
      cases l with
      | nil => rfl
      | cons i t =>
        obtain ⟨x, hx⟩ := getLast?_cons_ex i t
        exact absurd (hlast x hx) (by simp)
    subst hl0
    have hqf : qf = none := hdll
    subst hqf
    simp only [List.length_nil] at hcount
    apply valid_of_rep _ heap _ [pid]
    refine ⟨⟨rfl, ?_, ?_⟩, List.nodup_singleton pid,
      by simp [mi_page_queue_push_at_end, hcount], ?_, ?_⟩
    · simp [mi_page_queue_push_at_end, updPage_self, updPage_updPage_same]
    · simp [mi_page_queue_push_at_end, updPage_self, updPage_updPage_same,
        dllSeg_nil]
    · intro j hj
      rcases List.mem_singleton.mp hj with rfl
      apply pageOk_pushed _ heap ⟨none, none, qbs, qc⟩ _ j rfl
      · simp [mi_page_queue_push_at_end, updPage_self, updPage_updPage_same,
          mi_page_queue_is_full]
      · simp [mi_page_queue_push_at_end, updPage_self, updPage_updPage_same,
          hheap]
      · simpa [mi_page_queue_push_at_end, updPage_self, updPage_updPage_same]
          using hpre
    · intro x hx
      simp at hx
      subst hx
      rfl
  | some lst =>
    cases l with
    | nil =>
      have hqf : qf = none := hdll
      exact absurd (hcoh hqf) (by simp)
    | cons i t =>
      obtain ⟨x, hx⟩ := getLast?_cons_ex i t
      have hxl : some lst = some x := hlast x hx
      injection hxl with hxl
      subst hxl
      have hlst_mem : lst ∈ i :: t := mem_of_getLast? _ _ hx
      have hplst : pid ≠ lst := fun h => hmem (h ▸ hlst_mem)
      have hs2pid : (mi_page_queue_push_at_end ⟨qf, some lst, qbs, qc⟩ s pid).1 pid =
          { s pid with
              in_full := mi_page_queue_is_full ⟨qf, some lst, qbs, qc⟩
              prev := some lst
              next := none } := by
        simp [mi_page_queue_push_at_end, updPage_self, updPage_updPage_same,
          updPage_other, hplst, Ne.symm hplst]
      have hs2lst : (mi_page_queue_push_at_end ⟨qf, some lst, qbs, qc⟩ s pid).1 lst =
          { s lst with next := some pid } := by
        simp [mi_page_queue_push_at_end, updPage_self, updPage_updPage_same,
          updPage_other, hplst, Ne.symm hplst]
      have hs2other : ∀ y, y ≠ pid → y ≠ lst →
          (mi_page_queue_push_at_end ⟨qf, some lst, qbs, qc⟩ s pid).1 y = s y := by
        intro y hy1 hy2
        simp [mi_page_queue_push_at_end, updPage_other, hy1, hy2]
      apply valid_of_rep _ heap _ ((i :: t) ++ [pid])
      refine ⟨?_, ?_, ?_, ?_, ?_⟩
      · apply dllSeg_append_compose _ (i :: t) [pid] none qf (some pid)
        · apply dllSeg_set_end s _ (i :: t) none qf none (some pid) lst hdll hnd hx
          · intro y hy hyl
            rw [hs2other y (fun h => hmem (h ▸ hy)) hyl]
            exact ⟨rfl, rfl⟩
          · rw [hs2lst]
          · rw [hs2lst]
        · rw [lastOr_none_eq, hx]
          refine ⟨rfl, ?_, ?_⟩
          · rw [hs2pid]
          · rw [dllSeg_nil, hs2pid]
      · rw [List.nodup_append]
        refine ⟨hnd, List.nodup_singleton pid, ?_⟩
        intro a ha hb
        rw [List.mem_singleton] at hb
        subst hb
        exact hmem ha
      · simp [mi_page_queue_push_at_end] at hcount ⊢
        omega
      · intro j hj
        rcases List.mem_append.mp hj with hj | hj
        · have hokj := hok j hj
          have hfields :
              (mi_page_queue_push_at_end ⟨qf, some lst, qbs, qc⟩ s pid).1 j = s j ∨
              (mi_page_queue_push_at_end ⟨qf, some lst, qbs, qc⟩ s pid).1 j =
                { s j with next := some pid } := by
            by_cases hjl : j = lst
            · subst hjl
              exact Or.inr hs2lst
            · exact Or.inl (hs2other j (fun h => hmem (h ▸ hj)) hjl)
          have hcongr :
              pageOk (mi_page_queue_push_at_end ⟨qf, some lst, qbs, qc⟩ s pid).1
                heap (mi_page_queue_push_at_end ⟨qf, some lst, qbs, qc⟩ s pid).2 j =
              pageOk s heap ⟨qf, some lst, qbs, qc⟩ j := by
            rcases hfields with heq | heq <;>
              exact pageOk_congr s _ heap ⟨qf, some lst, qbs, qc⟩ _ j
                (by rw [heq]) (by rw [heq]) (by rw [heq]) (by rw [heq]) rfl
          rw [hcongr]
          exact hokj
        · rcases List.mem_singleton.mp hj with rfl
          apply pageOk_pushed _ heap ⟨qf, some lst, qbs, qc⟩ _ j rfl
          · rw [hs2pid]
          · rw [hs2pid]
            exact hheap
          · rw [hs2pid]
            exact hpre
      · intro x hx2
        rw [List.getLast?_concat] at hx2
        injection hx2 with hx2
        subst hx2
        rfl

/-! Preservation of the queue invariant by `mi_page_queue_remove`. -/

theorem mi_page_queue_remove_preserves (s : Store) (heap : Nat) (pq : PageQueue)
    (pid : Nat)
    (hv : _mi_page_queue_is_valid s heap pq = true)
    (hin : mi_page_queue_contains s pq pid = true) :
    _mi_page_queue_is_valid (mi_page_queue_remove pq s pid).1 heap
      (mi_page_queue_remove pq s pid).2 = true := by
  obtain ⟨l, hrep⟩ := rep_of_valid s heap pq hv
  have hmem : pid ∈ l := (contains_iff_mem s heap pq l hrep pid).mp hin
  obtain ⟨hdll, hnd, hcount, hok, hlast⟩ := hrep
  obtain ⟨l1, l2, rfl⟩ := List.append_of_mem hmem
  rw [List.nodup_append] at hnd
  obtain ⟨hnd1, hnd2, hdisj⟩ := hnd
  have hpid_l1 : pid ∉ l1 := fun h => hdisj h (List.mem_cons_self pid l2)
  have hpid_l2 : pid ∉ l2 := (List.nodup_cons.mp hnd2).1
  have hnd2t : l2.Nodup := (List.nodup_cons.mp hnd2).2
  obtain ⟨qf, ql, qbs, qc⟩ := pq
  simp only at hdll hcount hok hlast ⊢
  obtain ⟨c2, hseg1, hseg2⟩ := dllSeg_append_split s l1 (pid :: l2) none qf none hdll
  have hc2 : c2 = some pid := hseg2.1
  subst hc2
  have hprev_pid : (s pid).prev = lastOr l1 none := hseg2.2.1
  have htail : dllSeg s (some pid) ((s pid).next) l2 none := hseg2.2.2
  cases l1 with
  | nil =>
    have hqf : qf = some pid := hseg1
    subst hqf
    have hP : (s pid).prev = none := by rw [hprev_pid]; rfl
    cases l2 with
    | nil =>
      -- removing the sole element
      have hN : (s pid).next = none := htail
      have hql : ql = some pid := hlast pid (by simp)
      subst hql
      apply valid_of_rep _ heap _ []
      refine ⟨?_, List.nodup_nil, ?_, by simp, ?_⟩
      · show (mi_page_queue_remove ⟨some pid, some pid, qbs, qc⟩ s pid).2.first = none
        simp [mi_page_queue_remove, hP, hN]
      · simp [mi_page_queue_remove, hP, hN] at hcount ⊢
        omega
      · intro x hx
        exact absurd hx (by simp)
    | cons nx l2t =>
      -- removing the first of several
      have hN : (s pid).next = some nx := htail.1
      have hnxl2 : nx ∈ nx :: l2t := List.mem_cons_self nx l2t
      have hnxpid : nx ≠ pid := fun h => hpid_l2 (h ▸ hnxl2)
      obtain ⟨x, hx⟩ := getLast?_cons_ex nx l2t
      have hxl2 : x ∈ nx :: l2t := mem_of_getLast? _ _ hx
      have hql : ql = some x := by
        apply hlast
        rw [List.nil_append, List.getLast?_cons_cons]
        exact hx
      have hxpid : x ≠ pid := fun h => hpid_l2 (h ▸ hxl2)
      have hql_ne : ¬(ql = some pid) := by
        rw [hql]
        intro h
        injection h with h
        exact hxpid h
      -- store facts
      have hs2nx : (mi_page_queue_remove ⟨some pid, ql, qbs, qc⟩ s pid).1 nx =
          { s nx with prev := none } := by
        simp [mi_page_queue_remove, hP, hN, updPage_self, updPage_other,
          hnxpid, Ne.symm hnxpid, hql_ne]
      have hs2other : ∀ y, y ≠ pid → y ≠ nx →
          (mi_page_queue_remove ⟨some pid, ql, qbs, qc⟩ s pid).1 y = s y := by
        intro y hy1 hy2
        simp [mi_page_queue_remove, hP, hN, updPage_other, hy1, hy2,
          Ne.symm hnxpid, hql_ne]
      have hq2 : (mi_page_queue_remove ⟨some pid, ql, qbs, qc⟩ s pid).2 =
          ⟨some nx, ql, qbs, qc - 1⟩ := by
        simp [mi_page_queue_remove, hP, hN, updPage_other, hnxpid,
          Ne.symm hnxpid, hql_ne]
      rw [hq2]
      apply valid_of_rep _ heap _ (nx :: l2t)
      have hnd2c := List.nodup_cons.mp hnd2t
      refine ⟨?_, hnd2t, ?_, ?_, ?_⟩
      · rw [hN] at htail
        apply dllSeg_retarget_head s _ nx l2t (some pid) none (some nx) none htail
        · rw [hs2nx]
        · rw [hs2nx]
        · intro y hy
          rw [hs2other y (fun h => hpid_l2 (h ▸ List.mem_cons_of_mem nx hy))
            (fun h => hnd2c.1 (h ▸ hy))]
          exact ⟨rfl, rfl⟩
      · simp at hcount ⊢
        omega
      · intro j hj
        have hokj := hok j (List.mem_append.mpr (Or.inr (List.mem_cons_of_mem pid hj)))
        have hfields : (mi_page_queue_remove ⟨some pid, ql, qbs, qc⟩ s pid).1 j = s j ∨
            (mi_page_queue_remove ⟨some pid, ql, qbs, qc⟩ s pid).1 j =
              { s j with prev := none } := by
          by_cases hjn : j = nx
          · subst hjn
            exact Or.inr hs2nx
          · exact Or.inl (hs2other j (fun h => hpid_l2 (h ▸ hj)) hjn)
        have hcongr : pageOk (mi_page_queue_remove ⟨some pid, ql, qbs, qc⟩ s pid).1
            heap ⟨some nx, ql, qbs, qc - 1⟩ j =
            pageOk s heap ⟨some pid, ql, qbs, qc⟩ j := by
          rcases hfields with heq | heq <;>
            exact pageOk_congr s _ heap ⟨some pid, ql, qbs, qc⟩ _ j
              (by rw [heq]) (by rw [heq]) (by rw [heq]) (by rw [heq]) rfl
        rw [hcongr]
        exact hokj
      · intro x2 hx2
        rw [hx] at hx2
        injection hx2 with hx2
        subst hx2
        exact hql
  | cons p1 l1t =>
    have hqf : qf = some p1 := hseg1.1
    have hp1l1 : p1 ∈ p1 :: l1t := List.mem_cons_self p1 l1t
    have hp1pid : p1 ≠ pid := fun h => hpid_l1 (h ▸ hp1l1)
    have hqf_ne : ¬(qf = some pid) := by
      rw [hqf]
      intro h
      injection h with h
      exact hp1pid h
    obtain ⟨pr, hpr⟩ := getLast?_cons_ex p1 l1t
    have hprl1 : pr ∈ p1 :: l1t := mem_of_getLast? _ _ hpr
    have hprpid : pr ≠ pid := fun h => hpid_l1 (h ▸ hprl1)
    have hP : (s pid).prev = some pr := by
      rw [hprev_pid, lastOr_none_eq, hpr]
    cases l2 with
    | nil =>
      -- removing the final element
      have hN : (s pid).next = none := htail
      have hql : ql = some pid := by
        apply hlast
        rw [List.getLast?_concat]
      have hs2pr : (mi_page_queue_remove ⟨qf, ql, qbs, qc⟩ s pid).1 pr =
          { s pr with next := none } := by
        simp [mi_page_queue_remove, hP, hN, updPage_self, updPage_other,
          hprpid, Ne.symm hprpid, hql, hqf_ne]
      have hs2other : ∀ y, y ≠ pid → y ≠ pr →
          (mi_page_queue_remove ⟨qf, ql, qbs, qc⟩ s pid).1 y = s y := by
        intro y hy1 hy2
        simp [mi_page_queue_remove, hP, hN, updPage_other, hy1, hy2,
          hprpid, Ne.symm hprpid, hql, hqf_ne]
      have hq2 : (mi_page_queue_remove ⟨qf, ql, qbs, qc⟩ s pid).2 =
          ⟨qf, some pr, qbs, qc - 1⟩ := by
        simp [mi_page_queue_remove, hP, hN, updPage_other, hprpid,
          Ne.symm hprpid, hql, hqf_ne]
      rw [hq2]
      apply valid_of_rep _ heap _ (p1 :: l1t)
      refine ⟨?_, hnd1, ?_, ?_, ?_⟩
      · apply dllSeg_set_end s _ (p1 :: l1t) none qf (some pid) none pr hseg1
          hnd1 hpr
        · intro y hy hyp
          rw [hs2other y (fun h => hpid_l1 (h ▸ hy)) hyp]
          exact ⟨rfl, rfl⟩
        · rw [hs2pr]
        · rw [hs2pr]
      · simp at hcount ⊢
        omega
      · intro j hj
        have hokj := hok j (List.mem_append.mpr (Or.inl hj))
        have hfields : (mi_page_queue_remove ⟨qf, ql, qbs, qc⟩ s pid).1 j = s j ∨
            (mi_page_queue_remove ⟨qf, ql, qbs, qc⟩ s pid).1 j =
              { s j with next := none } := by
          by_cases hjp : j = pr
          · subst hjp
            exact Or.inr hs2pr
          · exact Or.inl (hs2other j (fun h => hpid_l1 (h ▸ hj)) hjp)
        have hcongr : pageOk (mi_page_queue_remove ⟨qf, ql, qbs, qc⟩ s pid).1
            heap ⟨qf, some pr, qbs, qc - 1⟩ j =
            pageOk s heap ⟨qf, ql, qbs, qc⟩ j := by
          rcases hfields with heq | heq <;>
            exact pageOk_congr s _ heap ⟨qf, ql, qbs, qc⟩ _ j
              (by rw [heq]) (by rw [heq]) (by rw [heq]) (by rw [heq]) rfl
        rw [hcongr]
        exact hokj
      · intro x2 hx2
        rw [hpr] at hx2
        injection hx2 with hx2
        subst hx2
        rfl
    | cons nx l2t =>
      -- removing an interior element
      have hN : (s pid).next = some nx := htail.1
      have hnxl2 : nx ∈ nx :: l2t := List.mem_cons_self nx l2t
      have hnxpid : nx ≠ pid := fun h => hpid_l2 (h ▸ hnxl2)
      have hnxpr : nx ≠ pr := by
        intro h
        exact hdisj (h ▸ hprl1) (List.mem_cons_of_mem pid hnxl2)
      obtain ⟨x, hx⟩ := getLast?_cons_ex nx l2t
      have hxl2 : x ∈ nx :: l2t := mem_of_getLast? _ _ hx
      have hql : ql = some x := by
        apply hlast
        rw [List.getLast?_append_cons, List.getLast?_cons_cons]
        exact hx
      have hxpid : x ≠ pid := fun h => hpid_l2 (h ▸ hxl2)
      have hql_ne : ¬(ql = some pid) := by
        rw [hql]
        intro h
        injection h with h
        exact hxpid h
      have hs2pr : (mi_page_queue_remove ⟨qf, ql, qbs, qc⟩ s pid).1 pr =
          { s pr with next := some nx } := by
        simp [mi_page_queue_remove, hP, hN, updPage_self, updPage_other,
          hprpid, Ne.symm hprpid, hnxpr, Ne.symm hnxpr, hnxpid,
          Ne.symm hnxpid, hql_ne, hqf_ne]
      have hs2nx : (mi_page_queue_remove ⟨qf, ql, qbs, qc⟩ s pid).1 nx =
          { s nx with prev := some pr } := by
        simp [mi_page_queue_remove, hP, hN, updPage_self, updPage_other,
          hprpid, Ne.symm hprpid, hnxpr, Ne.symm hnxpr, hnxpid,
          Ne.symm hnxpid, hql_ne, hqf_ne]
      have hs2other : ∀ y, y ≠ pid → y ≠ pr → y ≠ nx →
          (mi_page_queue_remove ⟨qf, ql, qbs, qc⟩ s pid).1 y = s y := by
        intro y hy1 hy2 hy3
        simp [mi_page_queue_remove, hP, hN, updPage_other, hy1, hy2, hy3,
          hprpid, Ne.symm hprpid, hnxpid, Ne.symm hnxpid, hnxpr,
          Ne.symm hnxpr, hql_ne, hqf_ne]
      have hq2 : (mi_page_queue_remove ⟨qf, ql, qbs, qc⟩ s pid).2 =
          ⟨qf, ql, qbs, qc - 1⟩ := by
        simp [mi_page_queue_remove, hP, hN, updPage_other, hprpid,
          Ne.symm hprpid, hnxpid, Ne.symm hnxpid, hnxpr, Ne.symm hnxpr,
          hql_ne, hqf_ne]
      rw [hq2]
      apply valid_of_rep _ heap _ ((p1 :: l1t) ++ (nx :: l2t))
      have hnd2c := List.nodup_cons.mp hnd2t
      refine ⟨?_, ?_, ?_, ?_, ?_⟩
      · apply dllSeg_append_compose _ (p1 :: l1t) (nx :: l2t) none qf (some nx)
        · apply dllSeg_set_end s _ (p1 :: l1t) none qf (some pid) (some nx)
            pr hseg1 hnd1 hpr
          · intro y hy hyp
            rw [hs2other y (fun h => hpid_l1 (h ▸ hy)) hyp
              (fun h => hdisj (h ▸ hy) (List.mem_cons_of_mem pid hnxl2))]
            exact ⟨rfl, rfl⟩
          · rw [hs2pr]
          · rw [hs2pr]
        · rw [lastOr_none_eq, hpr]
          rw [hN] at htail
          apply dllSeg_retarget_head s _ nx l2t (some pid) (some pr)
            (some nx) none htail
          · rw [hs2nx]
          · rw [hs2nx]
          · intro y hy
            rw [hs2other y (fun h => hpid_l2 (h ▸ List.mem_cons_of_mem nx hy))
              (fun h => hdisj (h ▸ hprl1)
                (List.mem_cons_of_mem pid (List.mem_cons_of_mem nx hy)))
              (fun h => hnd2c.1 (h ▸ hy))]
            exact ⟨rfl, rfl⟩
      · rw [List.nodup_append]
        refine ⟨hnd1, hnd2t, ?_⟩
        intro a ha hb
        exact hdisj ha (List.mem_cons_of_mem pid hb)
      · simp at hcount ⊢
        omega
      · intro j hj
        have hjfull : j ∈ (p1 :: l1t) ++ pid :: nx :: l2t := by
          rcases List.mem_append.mp hj with hj | hj
          · exact List.mem_append.mpr (Or.inl hj)
          · exact List.mem_append.mpr (Or.inr (List.mem_cons_of_mem pid hj))
        have hokj := hok j hjfull
        have hjpid : j ≠ pid := by
          intro h
          subst h
          rcases List.mem_append.mp hj with hj | hj
          · exact hpid_l1 hj
          · exact hpid_l2 hj
        have hfields : (mi_page_queue_remove ⟨qf, ql, qbs, qc⟩ s pid).1 j = s j ∨
            (mi_page_queue_remove ⟨qf, ql, qbs, qc⟩ s pid).1 j =
              { s j with next := some nx } ∨
            (mi_page_queue_remove ⟨qf, ql, qbs, qc⟩ s pid).1 j =
              { s j with prev := some pr } := by
          by_cases hjp : j = pr
          · subst hjp
            exact Or.inr (Or.inl hs2pr)
          · by_cases hjn : j = nx
            · subst hjn
              exact Or.inr (Or.inr hs2nx)
            · exact Or.inl (hs2other j hjpid hjp hjn)
        have hcongr : pageOk (mi_page_queue_remove ⟨qf, ql, qbs, qc⟩ s pid).1
            heap ⟨qf, ql, qbs, qc - 1⟩ j =
            pageOk s heap ⟨qf, ql, qbs, qc⟩ j := by
          rcases hfields with heq | heq | heq <;>
            exact pageOk_congr s _ heap ⟨qf, ql, qbs, qc⟩ _ j
              (by rw [heq]) (by rw [heq]) (by rw [heq]) (by rw [heq]) rfl
        rw [hcongr]
        exact hokj
      · intro x2 hx2
        rw [List.getLast?_append_cons, hx] at hx2
        injection hx2 with hx2
        subst hx2
        exact hql

/-! Helpers for `_mi_page_queue_append`. -/

theorem chainIds_eq (s : Store) :
    ∀ (l : List Nat) (p c : Option Nat) (fuel : Nat),
      dllSeg s p c l none → l.length < fuel → chainIds s fuel c = l := by
  intro l
  induction l with
  | nil =>
    intro p c fuel h _
    rw [dllSeg_nil] at h
    subst h
    cases fuel <;> rfl
  | cons i t ih =>
    intro p c fuel h hf
    obtain ⟨hc, _, ht⟩ := h
    subst hc
    cases fuel with
    | zero => exact absurd hf (by simp)
    | succ f =>
      show i :: chainIds s f (s i).next = i :: t
      rw [ih (some i) (s i).next f ht (by simp at hf; omega)]

theorem setHeapAll_spec (h : Nat) :
    ∀ (ids : List Nat) (s : Store) (x : Nat),
      setHeapAll s ids h x =
        if x ∈ ids then { s x with heap := h } else s x := by
  intro ids
  induction ids with
  | nil =>
    intro s x
    simp [setHeapAll]
  | cons i is ih =>
    intro s x
    show setHeapAll (updPage s i { s i with heap := h }) is h x = _
    rw [ih]
    by_cases hxi : x = i
    · subst hxi
      by_cases hxin : x ∈ is <;>
        simp [hxin, updPage_self]
    · by_cases hxin : x ∈ is <;>
        simp [hxin, hxi, updPage_other _ _ _ _ hxi]

theorem pageOk_transfer (s s' : Store) (heap heap2 : Nat) (aq pq' : PageQueue)
    (x : Nat)
    (hfull : (s' x).in_full = (s x).in_full)
    (hhuge : (s' x).is_huge = (s x).is_huge)
    (hbs : (s' x).block_size = (s x).block_size)
    (hheap : (s' x).heap = heap)
    (hq : pq'.block_size = aq.block_size)
    (hold : pageOk s heap2 aq x = true) :
    pageOk s' heap pq' x = true := by
  unfold pageOk at hold ⊢
  rw [Bool.and_eq_true] at hold ⊢
  refine ⟨?_, by simp [hheap]⟩
  rw [hfull, hhuge, hbs, hq]
  exact hold.1

/-! Preservation of the queue invariant by `_mi_page_queue_append`.  The two
queues belong to different heaps (`_mi_page_queue_append` is only called
from `mi_heap_absorb`), so their chains are disjoint; that disjointness and
the empty-queue coherence of `pq` are assumed, as in the other operations,
because `_mi_page_queue_is_valid` checks each queue by itself. -/

theorem _mi_page_queue_append_preserves (s : Store) (heap heap2 : Nat)
    (pq append : PageQueue)
    (hv1 : _mi_page_queue_is_valid s heap pq = true)
    (hv2 : _mi_page_queue_is_valid s heap2 append = true)
    (hbs : pq.block_size = append.block_size)
    (hcoh : pq.first = none → pq.last = none)
    (hdisj : ∀ i ∈ chainIds s (append.count + 1) append.first,
      mi_page_queue_contains s pq i = false) :
    _mi_page_queue_is_valid (_mi_page_queue_append heap pq append s).1 heap
      (_mi_page_queue_append heap pq append s).2.1 = true := by
  obtain ⟨l1, hrep1⟩ := rep_of_valid s heap pq hv1
  obtain ⟨l2, hrep2⟩ := rep_of_valid s heap2 append hv2
  have hchain : chainIds s (append.count + 1) append.first = l2 :=
    chainIds_eq s l2 none append.first (append.count + 1) hrep2.1
      (by have := hrep2.2.2.1; omega)
  have hdisj2 : ∀ i ∈ l2, i ∉ l1 := by
    intro i hi hmem
    have hcontains := (contains_iff_mem s heap pq l1 hrep1 i).mpr hmem
    have hfalse := hdisj i (by rw [hchain]; exact hi)
    rw [hcontains] at hfalse
    exact Bool.noConfusion hfalse
  obtain ⟨hdll1, hnd1, hcount1, hok1, hlast1⟩ := hrep1
  obtain ⟨hdll2, hnd2, hcount2, hok2, hlast2⟩ := hrep2
  obtain ⟨qf, ql, qbs, qc⟩ := pq
  obtain ⟨af0, al, abs0, ac⟩ := append
  simp only at hdll1 hcount1 hok1 hlast1 hdll2 hcount2 hok2 hlast2 hbs hcoh hchain ⊢
  cases af0 with
  | none =>
    have hl2 : l2 = [] := dllSeg_start_none s none l2 hdll2
    subst hl2
    exact hv1
  | some af =>
    cases l2 with
    | nil =>
      have h0 : some af = none := hdll2
      exact Option.noConfusion h0
    | cons i l2t =>
      have hafi : af = i := Option.some.inj hdll2.1
      subst hafi
      -- facts about the heap-retargeted store
      have hs1link : ∀ x, ((setHeapAll s (af :: l2t) heap) x).prev = (s x).prev ∧
          ((setHeapAll s (af :: l2t) heap) x).next = (s x).next ∧
          ((setHeapAll s (af :: l2t) heap) x).in_full = (s x).in_full ∧
          ((setHeapAll s (af :: l2t) heap) x).is_huge = (s x).is_huge ∧
          ((setHeapAll s (af :: l2t) heap) x).block_size = (s x).block_size := by
        intro x
        rw [setHeapAll_spec]
        by_cases hx : x ∈ af :: l2t <;> simp [hx]
      have hs1heap : ∀ x ∈ af :: l2t,
          ((setHeapAll s (af :: l2t) heap) x).heap = heap := by
        intro x hx
        rw [setHeapAll_spec]
        simp [hx]
      have hs1not : ∀ x, x ∉ af :: l2t → (setHeapAll s (af :: l2t) heap) x = s x := by
        intro x hx
        rw [setHeapAll_spec]
        simp [hx]
      cases ql with
      | none =>
        have hl1 : l1 = [] := by
          cases l1 with
          | nil => rfl
          | cons j t =>
            obtain ⟨x, hx⟩ := getLast?_cons_ex j t
            exact absurd (hlast1 x hx) (by simp)
        subst hl1
        simp only [List.length_nil] at hcount1
        have hresult : (_mi_page_queue_append heap ⟨qf, none, qbs, qc⟩
            ⟨some af, al, abs0, ac⟩ s).1 = setHeapAll s (af :: l2t) heap ∧
            (_mi_page_queue_append heap ⟨qf, none, qbs, qc⟩
            ⟨some af, al, abs0, ac⟩ s).2.1 =
              ⟨some af, al, qbs, qc + ac⟩ := by
          constructor <;> simp [_mi_page_queue_append, hchain]
        rw [hresult.1, hresult.2]
        apply valid_of_rep _ heap _ (af :: l2t)
        refine ⟨?_, hnd2, ?_, ?_, ?_⟩
        · apply dllSeg_congr s _ (af :: l2t) none (some af) none _ hdll2
          intro x _
          exact ⟨(hs1link x).1, (hs1link x).2.1⟩
        · simp at hcount2 ⊢
          omega
        · intro j hj
          apply pageOk_transfer s _ heap heap2 ⟨some af, al, abs0, ac⟩ _ j
            (hs1link j).2.2.1 (hs1link j).2.2.2.1 (hs1link j).2.2.2.2
            (hs1heap j hj) hbs (hok2 j hj)
        · intro x hx
          exact hlast2 x hx
      | some lst =>
        -- pq's chain is nonempty
        cases l1 with
        | nil =>
          have hqf : qf = none := hdll1
          exact absurd (hcoh hqf) (by simp)
        | cons p1 l1t =>
          obtain ⟨x0, hx0⟩ := getLast?_cons_ex p1 l1t
          have hxl : some lst = some x0 := hlast1 x0 hx0
          injection hxl with hxl
          subst hxl
          have hlst_mem : lst ∈ p1 :: l1t := mem_of_getLast? _ _ hx0
          have hlst_nl2 : lst ∉ af :: l2t := fun h => hdisj2 lst h hlst_mem
          have haf_mem : af ∈ af :: l2t := List.mem_cons_self af l2t
          have haf_nl1 : af ∉ p1 :: l1t := hdisj2 af haf_mem
          have haflst : af ≠ lst := fun h => hlst_nl2 (h ▸ haf_mem)
          -- result store and queue
          have hresult : (_mi_page_queue_append heap ⟨qf, some lst, qbs, qc⟩
              ⟨some af, al, abs0, ac⟩ s).1 =
              updPage (updPage (setHeapAll s (af :: l2t) heap) lst
                { (setHeapAll s (af :: l2t) heap) lst with next := some af }) af
                { (updPage (setHeapAll s (af :: l2t) heap) lst
                    { (setHeapAll s (af :: l2t) heap) lst with next := some af })
                    af with prev := some lst } ∧
              (_mi_page_queue_append heap ⟨qf, some lst, qbs, qc⟩
              ⟨some af, al, abs0, ac⟩ s).2.1 = ⟨qf, al, qbs, qc + ac⟩ := by
            constructor <;> simp [_mi_page_queue_append, hchain]
          have hs3af : (_mi_page_queue_append heap ⟨qf, some lst, qbs, qc⟩
              ⟨some af, al, abs0, ac⟩ s).1 af =
              { (setHeapAll s (af :: l2t) heap) af with prev := some lst } := by
            rw [hresult.1]
            simp [updPage_self, updPage_other, haflst]
          have hs3lst : (_mi_page_queue_append heap ⟨qf, some lst, qbs, qc⟩
              ⟨some af, al, abs0, ac⟩ s).1 lst =
              { s lst with next := some af } := by
            rw [hresult.1]
            simp [updPage_self, updPage_other, Ne.symm haflst,
              hs1not lst hlst_nl2]
          have hs3other : ∀ y, y ≠ af → y ≠ lst →
              (_mi_page_queue_append heap ⟨qf, some lst, qbs, qc⟩
              ⟨some af, al, abs0, ac⟩ s).1 y = (setHeapAll s (af :: l2t) heap) y := by
            intro y hy1 hy2
            rw [hresult.1]
            simp [updPage_other, hy1, hy2]
          rw [hresult.2]
          apply valid_of_rep _ heap _ ((p1 :: l1t) ++ (af :: l2t))
          refine ⟨?_, ?_, ?_, ?_, ?_⟩
          · apply dllSeg_append_compose _ (p1 :: l1t) (af :: l2t) none qf (some af)
            · apply dllSeg_set_end s _ (p1 :: l1t) none qf none (some af)
                lst hdll1 hnd1 hx0
              · intro y hy hyl
                have hynl2 : y ∉ af :: l2t := fun h => hdisj2 y h hy
                rw [hs3other y (fun h => haf_nl1 (h ▸ hy)) hyl, hs1not y hynl2]
                exact ⟨rfl, rfl⟩
              · rw [hs3lst]
              · rw [hs3lst]
            · rw [lastOr_none_eq, hx0]
              apply dllSeg_retarget_head s _ af l2t none (some lst)
                (some af) none hdll2
              · rw [hs3af]
                exact ((hs1link af).2.1)
              · rw [hs3af]
              · intro y hy
                have hyl2 : y ∈ af :: l2t := List.mem_cons_of_mem af hy
                have hynlst : y ≠ lst := fun h => hlst_nl2 (h ▸ hyl2)
                have hynaf : y ≠ af := fun h =>
                  (List.nodup_cons.mp hnd2).1 (h ▸ hy)
                rw [hs3other y hynaf hynlst]
                exact ⟨(hs1link y).1, (hs1link y).2.1⟩
          · rw [List.nodup_append]
            exact ⟨hnd1, hnd2, fun a ha hb => hdisj2 a hb ha⟩
          · simp at hcount1 hcount2 ⊢
            omega
          · intro j hj
            rcases List.mem_append.mp hj with hj | hj
            · -- pages of pq's own chain
              have hokj := hok1 j hj
              have hjnaf : j ≠ af := fun h => haf_nl1 (h ▸ hj)
              have hfields : (_mi_page_queue_append heap ⟨qf, some lst, qbs, qc⟩
                  ⟨some af, al, abs0, ac⟩ s).1 j = s j ∨
                  (_mi_page_queue_append heap ⟨qf, some lst, qbs, qc⟩
                  ⟨some af, al, abs0, ac⟩ s).1 j = { s j with next := some af } := by
                by_cases hjl : j = lst
                · subst hjl
                  exact Or.inr hs3lst
                · refine Or.inl ?_
                  rw [hs3other j hjnaf hjl,
                    hs1not j (fun h => hdisj2 j h hj)]
              have hcongr : pageOk (_mi_page_queue_append heap ⟨qf, some lst, qbs, qc⟩
                  ⟨some af, al, abs0, ac⟩ s).1 heap ⟨qf, al, qbs, qc + ac⟩ j =
                  pageOk s heap ⟨qf, some lst, qbs, qc⟩ j := by
                rcases hfields with heq | heq <;>
                  exact pageOk_congr s _ heap ⟨qf, some lst, qbs, qc⟩ _ j
                    (by rw [heq]) (by rw [heq]) (by rw [heq]) (by rw [heq]) rfl
              rw [hcongr]
              exact hokj
            · -- pages moved over from append's chain
              have hokj := hok2 j hj
              have hjnlst : j ≠ lst := fun h => hlst_nl2 (h ▸ hj)
              have hfields : ((_mi_page_queue_append heap ⟨qf, some lst, qbs, qc⟩
                  ⟨some af, al, abs0, ac⟩ s).1 j).in_full = (s j).in_full ∧
                  ((_mi_page_queue_append heap ⟨qf, some lst, qbs, qc⟩
                  ⟨some af, al, abs0, ac⟩ s).1 j).is_huge = (s j).is_huge ∧
                  ((_mi_page_queue_append heap ⟨qf, some lst, qbs, qc⟩
                  ⟨some af, al, abs0, ac⟩ s).1 j).block_size = (s j).block_size ∧
                  ((_mi_page_queue_append heap ⟨qf, some lst, qbs, qc⟩
                  ⟨some af, al, abs0, ac⟩ s).1 j).heap = heap := by
                by_cases hjaf : j = af
                · subst hjaf
                  rw [hs3af]
                  exact ⟨(hs1link j).2.2.1, (hs1link j).2.2.2.1,
                    (hs1link j).2.2.2.2, hs1heap j hj⟩
                · rw [hs3other j hjaf hjnlst]
                  exact ⟨(hs1link j).2.2.1, (hs1link j).2.2.2.1,
                    (hs1link j).2.2.2.2, hs1heap j hj⟩
              exact pageOk_transfer s _ heap heap2 ⟨some af, al, abs0, ac⟩ _ j
                hfields.1 hfields.2.1 hfields.2.2.1 hfields.2.2.2 hbs hokj
          · intro x hx
            rw [List.getLast?_append_cons] at hx
            exact hlast2 x hx

/-- C9: every page-queue operation of page-queue.c — `mi_page_queue_push`,
`mi_page_queue_push_at_end`, `mi_page_queue_remove` and
`_mi_page_queue_append` — preserves the well-formedness invariant checked
by `_mi_page_queue_is_valid`: the pages reachable from `pq.first` form a
doubly-linked list with mutually consistent `prev`/`next` pointers whose
last element is `pq.last`, every page's block size matches the queue's
block size (or the queue is the huge or the full queue), every page belongs
to the queue's heap, and `pq.count` equals the number of pages on the list.
Each operation is taken under the preconditions its call sites establish
(the C assertions): the pushed page is not yet in the queue, belongs to the
heap, and fits the queue selected by `mi_page_queue_of`; the removed page is
in the queue; the appended queue has the same block size, a chain disjoint
from the target's, and a coherent empty target. -/
theorem page_queue_ops_preserve_validity :
    (∀ (s : Store) (heap : Nat) (pq : PageQueue) (pid : Nat),
      _mi_page_queue_is_valid s heap pq = true →
      mi_page_queue_contains s pq pid = false →
      (s pid).heap = heap →
      (((s pid).is_huge = false ∧ (s pid).block_size = pq.block_size) ∨
       ((s pid).is_huge = true ∧ mi_page_queue_is_huge pq = true) ∨
       mi_page_queue_is_full pq = true) →
      _mi_page_queue_is_valid (mi_page_queue_push pq s pid).1 heap
        (mi_page_queue_push pq s pid).2 = true) ∧
    (∀ (s : Store) (heap : Nat) (pq : PageQueue) (pid : Nat),
      _mi_page_queue_is_valid s heap pq = true →
      mi_page_queue_contains s pq pid = false →
      (s pid).heap = heap →
      (pq.first = none → pq.last = none) →
      (((s pid).is_huge = false ∧ (s pid).block_size = pq.block_size) ∨
       ((s pid).is_huge = true ∧ mi_page_queue_is_huge pq = true) ∨
       mi_page_queue_is_full pq = true) →
      _mi_page_queue_is_valid (mi_page_queue_push_at_end pq s pid).1 heap
        (mi_page_queue_push_at_end pq s pid).2 = true) ∧
    (∀ (s : Store) (heap : Nat) (pq : PageQueue) (pid : Nat),
      _mi_page_queue_is_valid s heap pq = true →
      mi_page_queue_contains s pq pid = true →
      _mi_page_queue_is_valid (mi_page_queue_remove pq s pid).1 heap
        (mi_page_queue_remove pq s pid).2 = true) ∧
    (∀ (s : Store) (heap heap2 : Nat) (pq append : PageQueue),
      _mi_page_queue_is_valid s heap pq = true →
      _mi_page_queue_is_valid s heap2 append = true →
      pq.block_size = append.block_size →
      (pq.first = none → pq.last = none) →
      (∀ i ∈ chainIds s (append.count + 1) append.first,
        mi_page_queue_contains s pq i = false) →
      _mi_page_queue_is_valid (_mi_page_queue_append heap pq append s).1 heap
        (_mi_page_queue_append heap pq append s).2.1 = true) :=
  ⟨mi_page_queue_push_preserves, mi_page_queue_push_at_end_preserves,
   mi_page_queue_remove_preserves, _mi_page_queue_append_preserves⟩

/-- A concrete two-page store for the witness: pages of block size 32 on
heap 5. -/
def wStore : Store := fun _ =>
  { prev := none, next := none, block_size := 32, in_full := false,
    is_huge := false, heap := 5 }

/-- A concrete empty queue of block size 32. -/
def wQueue : PageQueue :=
  { first := none, last := none, block_size := 32, count := 0 }

/-- Witness for C9: pushing page 1 onto an empty block-32 queue of heap 5
keeps the queue valid; all hypotheses are checked by evaluation. -/
theorem page_queue_ops_preserve_validity_witness :
    _mi_page_queue_is_valid wStore 5 wQueue = true ∧
    _mi_page_queue_is_valid (mi_page_queue_push wQueue wStore 1).1 5
      (mi_page_queue_push wQueue wStore 1).2 = true :=
  ⟨by decide,
   page_queue_ops_preserve_validity.1 wStore 5 wQueue 1 (by decide) (by decide)
     (by decide) (by decide)⟩

/-! ## Part B: the linker passes, modelled from the specification.

The implementation files of the link pipeline (src/passes.cc,
src/gc-sections.cc, src/linker-script.cc, src/thunks.cc, src/relocatable.cc
and the rest listed by the build file) are not among the sources — only the
build manifest and two test scripts are.  Every definition in this part is
therefore modelled from the specification's words, as its doc comment
states. -/

/-- Generic engine behind the worklist loops of the archive extractor and
the GC mark pass: a sweep that only ever appends new elements reaches a
fixpoint within `univ.length + 1` iterations as long as it keeps its
accumulator duplicate-free and inside `univ`. -/
theorem sweep_reaches_fixpoint {α : Type} (F : List α → List α) (univ : List α)
    (happend : ∀ X, ∃ Y, F X = X ++ Y)
    (hinv : ∀ X, X.Nodup → X ⊆ univ → (F X).Nodup ∧ F X ⊆ univ)
    (X0 : List α) (h0 : X0.Nodup) (hs0 : X0 ⊆ univ) :
    F (F^[univ.length + 1] X0) = F^[univ.length + 1] X0 := by
  by_contra hne
  have hinvk : ∀ k, (F^[k] X0).Nodup ∧ F^[k] X0 ⊆ univ := by
    intro k
    induction k with
    | zero => exact ⟨h0, hs0⟩
    | succ k ih =>
      rw [Function.iterate_succ_apply']
      exact hinv _ ih.1 ih.2
  have hstable : ∀ k j, F (F^[k] X0) = F^[k] X0 → k ≤ j →
      F^[j] X0 = F^[k] X0 := by
    intro k j hfix hkj
    obtain ⟨d, rfl⟩ := Nat.exists_eq_add_of_le hkj
    induction d with
    | zero => rfl
    | succ d ih =>
      have h1 : k + (d + 1) = (k + d) + 1 := by omega
      rw [h1, Function.iterate_succ_apply', ih (by omega), hfix]
  have hall_strict : ∀ k, k ≤ univ.length + 1 → F (F^[k] X0) ≠ F^[k] X0 := by
    intro k hk hfix
    apply hne
    have h1 : F^[univ.length + 1] X0 = F^[k] X0 := hstable k _ hfix hk
    rw [h1, hfix]
  have hgrow : ∀ k, k ≤ univ.length + 1 →
      (F^[k] X0).length + 1 ≤ (F^[k + 1] X0).length := by
    intro k hk
    obtain ⟨Y, hY⟩ := happend (F^[k] X0)
    rw [Function.iterate_succ_apply', hY]
    cases Y with
    | nil => exact absurd (by rw [hY]; simp) (hall_strict k hk)
    | cons y ys => simp
  have hlen : ∀ k, k ≤ univ.length + 1 → k ≤ (F^[k] X0).length := by
    intro k
    induction k with
    | zero => simp
    | succ k ih =>
      intro hk
      have h1 := hgrow k (by omega)
      have h2 := ih (by omega)
      omega
  have hbound : (F^[univ.length + 1] X0).length ≤ univ.length :=
    (List.subperm_of_subset (hinvk _).1 (hinvk _).2).length_le
  have := hlen (univ.length + 1) (le_refl _)
  omega

/-- A sweep that only appends is monotone across iterations. -/
theorem sweep_monotone {α : Type} (F : List α → List α)
    (happend : ∀ X, ∃ Y, F X = X ++ Y) (X0 : List α) (k j : Nat) (hkj : k ≤ j) :
    F^[k] X0 ⊆ F^[j] X0 := by
  obtain ⟨d, rfl⟩ := Nat.exists_eq_add_of_le hkj
  induction d with
  | zero => exact fun a ha => ha
  | succ d ih =>
    have h1 : k + (d + 1) = (k + d) + 1 := by omega
    rw [h1, Function.iterate_succ_apply']
    obtain ⟨Y, hY⟩ := happend (F^[k + d] X0)
    rw [hY]
    intro a ha
    exact List.mem_append.mpr (Or.inl (ih (by omega) ha))

/-! ### C6: common-symbol merging -/

/-- Modelled from the spec: a common-symbol declaration as the resolver
sees it — a tentative definition carrying a size and an alignment. -/
structure CommonSym where
  size : Nat
  align : Nat
  deriving DecidableEq

/-- Modelled from the spec, §4.4 rule 3: "Common symbols with different
sizes collapse to the largest; alignment is the least common multiple."
One pairwise collapse. -/
def mergeCommon (a b : CommonSym) : CommonSym :=
  { size := max a.size b.size, align := Nat.lcm a.align b.align }

/-- Modelled from the spec: the resolver folds every further common
declaration of the same name into the first one. -/
def resolveCommon (first : CommonSym) (rest : List CommonSym) : CommonSym :=
  rest.foldl mergeCommon first

theorem resolveCommon_size_ub (first : CommonSym) :
    ∀ (rest : List CommonSym) (c : CommonSym), c ∈ first :: rest →
      c.size ≤ (resolveCommon first rest).size := by
  intro rest
  induction rest generalizing first with
  | nil =>
    intro c hc
    rw [List.mem_singleton] at hc
    subst hc
    exact le_refl _
  | cons b rest ih =>
    intro c hc
    show c.size ≤ (resolveCommon (mergeCommon first b) rest).size
    rcases List.mem_cons.mp hc with hceq | hc
    · rw [hceq]
      exact le_trans (le_max_left _ _)
        (ih (mergeCommon first b) _ (List.mem_cons_self _ _))
    · rcases List.mem_cons.mp hc with hceq | hc
      · rw [hceq]
        exact le_trans (le_max_right _ _)
          (ih (mergeCommon first b) _ (List.mem_cons_self _ _))
      · exact ih (mergeCommon first b) c (List.mem_cons_of_mem _ hc)

theorem resolveCommon_size_mem (first : CommonSym) :
    ∀ (rest : List CommonSym),
      ∃ c ∈ first :: rest, (resolveCommon first rest).size = c.size := by
  intro rest
  induction rest generalizing first with
  | nil => exact ⟨first, List.mem_cons_self _ _, rfl⟩
  | cons b rest ih =>
    obtain ⟨c, hc, hsz⟩ := ih (mergeCommon first b)
    rcases List.mem_cons.mp hc with rfl | hc
    · show ∃ c ∈ first :: b :: rest, (resolveCommon (mergeCommon first b) rest).size = c.size
      rcases Nat.le_total first.size b.size with h | h
      · exact ⟨b, List.mem_cons_of_mem _ (List.mem_cons_self _ _),
          by rw [hsz]; show max first.size b.size = b.size; omega⟩
      · exact ⟨first, List.mem_cons_self _ _,
          by rw [hsz]; show max first.size b.size = first.size; omega⟩
    · exact ⟨c, List.mem_cons_of_mem _ (List.mem_cons_of_mem _ hc), hsz⟩

theorem resolveCommon_align_dvd (first : CommonSym) :
    ∀ (rest : List CommonSym) (c : CommonSym), c ∈ first :: rest →
      c.align ∣ (resolveCommon first rest).align := by
  intro rest
  induction rest generalizing first with
  | nil =>
    intro c hc
    rw [List.mem_singleton] at hc
    subst hc
    exact dvd_refl _
  | cons b rest ih =>
    intro c hc
    show c.align ∣ (resolveCommon (mergeCommon first b) rest).align
    rcases List.mem_cons.mp hc with hceq | hc
    · rw [hceq]
      exact dvd_trans (Nat.dvd_lcm_left _ _)
        (ih (mergeCommon first b) _ (List.mem_cons_self _ _))
    · rcases List.mem_cons.mp hc with hceq | hc
      · rw [hceq]
        exact dvd_trans (Nat.dvd_lcm_right _ _)
          (ih (mergeCommon first b) _ (List.mem_cons_self _ _))
      · exact ih (mergeCommon first b) c (List.mem_cons_of_mem _ hc)

theorem resolveCommon_align_least (first : CommonSym) :
    ∀ (rest : List CommonSym) (m : Nat),
      (∀ c ∈ first :: rest, c.align ∣ m) →
      (resolveCommon first rest).align ∣ m := by
  intro rest
  induction rest generalizing first with
  | nil =>
    intro m hm
    exact hm first (List.mem_cons_self _ _)
  | cons b rest ih =>
    intro m hm
    show (resolveCommon (mergeCommon first b) rest).align ∣ m
    apply ih (mergeCommon first b)
    intro c hc
    rcases List.mem_cons.mp hc with rfl | hc
    · exact Nat.lcm_dvd (hm first (List.mem_cons_self _ _))
        (hm b (List.mem_cons_of_mem _ (List.mem_cons_self _ _)))
    · exact hm c (List.mem_cons_of_mem _ (List.mem_cons_of_mem _ hc))

/-- C6: when several inputs declare the same common symbol, the resolved
reservation has the maximum of the sizes and the least common multiple of
the alignments; in particular three `int common_x;` declarations of sizes
4, 8, 4 (alignments 4, 8, 4) reserve 8 bytes aligned to 8. -/
theorem common_symbol_merge :
    (∀ (first : CommonSym) (rest : List CommonSym),
      (∀ c ∈ first :: rest, c.size ≤ (resolveCommon first rest).size) ∧
      (∃ c ∈ first :: rest, (resolveCommon first rest).size = c.size) ∧
      (∀ c ∈ first :: rest, c.align ∣ (resolveCommon first rest).align) ∧
      (∀ m, (∀ c ∈ first :: rest, c.align ∣ m) →
        (resolveCommon first rest).align ∣ m)) ∧
    resolveCommon ⟨4, 4⟩ [⟨8, 8⟩, ⟨4, 4⟩] = ⟨8, 8⟩ := by
  refine ⟨fun first rest => ⟨resolveCommon_size_ub first rest,
    resolveCommon_size_mem first rest, resolveCommon_align_dvd first rest,
    resolveCommon_align_least first rest⟩, by decide⟩

/-- Witness for C6: the size bound and lcm property evaluated on the
4, 8, 4 instance. -/
theorem common_symbol_merge_witness :
    (⟨8, 8⟩ : CommonSym) ∈ [(⟨4, 4⟩ : CommonSym), ⟨8, 8⟩, ⟨4, 4⟩] ∧
    (8 : Nat) ≤ (resolveCommon ⟨4, 4⟩ [⟨8, 8⟩, ⟨4, 4⟩]).size := by
  constructor
  · decide
  · exact (common_symbol_merge.1 ⟨4, 4⟩ [⟨8, 8⟩, ⟨4, 4⟩]).1 ⟨8, 8⟩ (by decide)

/-! ### C5: multiple strong definitions -/

/-- Modelled from the spec: one defined occurrence of a global symbol as
seen by the resolver — the defining file, whether the binding is strong,
and whether the definition sits in a COMDAT group that lost its election. -/
structure SymDef where
  file : String
  strong : Bool
  comdat_lost : Bool

/-- Modelled from the spec, §4.4 rule 2: "Two defined strongs in different
files is a fatal multiple-definition error unless either is in a COMDAT
group that lost its election, or unless --allow-multiple-definition is
set."  The check for one pair of defined occurrences; a fatal diagnostic
names the symbol and both files. -/
def checkDuplicate (allow_multiple : Bool) (name : String) (a b : SymDef) :
    Option String :=
  if a.strong && b.strong && !(a.file == b.file) &&
      !a.comdat_lost && !b.comdat_lost && !allow_multiple then
    some ("duplicate symbol: " ++ name ++ ": " ++ a.file ++ " " ++ b.file)
  else
    none

/-- Modelled from the spec: the diagnostics of a two-file link whose inputs
both define `name`, and the resulting exit code (0 on success, nonzero on
any fatal error). -/
def linkTwoDefs (allow_multiple : Bool) (name : String) (a b : SymDef) :
    List String × Nat :=
  let diags := (checkDuplicate allow_multiple name a b).toList
  (diags, if diags.isEmpty then 0 else 1)

/-- C5: two strong definitions of the same symbol in distinct files, with
neither in a losing COMDAT group and without `--allow-multiple-definition`,
make the link fail: exactly one multiple-definition diagnostic is emitted,
it names both files, and the exit code is nonzero. -/
theorem multiple_definition_fatal (name : String) (a b : SymDef)
    (ha : a.strong = true) (hb : b.strong = true) (hab : a.file ≠ b.file)
    (hca : a.comdat_lost = false) (hcb : b.comdat_lost = false) :
    (linkTwoDefs false name a b).1 =
      ["duplicate symbol: " ++ name ++ ": " ++ a.file ++ " " ++ b.file] ∧
    (linkTwoDefs false name a b).2 ≠ 0 := by
  have hne : (a.file == b.file) = false := by
    rw [beq_eq_false_iff_ne]
    exact hab
  have hcheck : checkDuplicate false name a b =
      some ("duplicate symbol: " ++ name ++ ": " ++ a.file ++ " " ++ b.file) := by
    unfold checkDuplicate
    rw [ha, hb, hne, hca, hcb]
    simp
  constructor
  · show (checkDuplicate false name a b).toList = _
    rw [hcheck]
    rfl
  · show (if ((checkDuplicate false name a b).toList).isEmpty then 0 else 1) ≠ 0
    rw [hcheck]
    simp

/-- Witness for C5: two objects `a.o` and `b.o` strong-defining `x`. -/
theorem multiple_definition_fatal_witness :
    (linkTwoDefs false "x" ⟨"a.o", true, false⟩ ⟨"b.o", true, false⟩).1 =
      ["duplicate symbol: x: a.o b.o"] ∧
    (linkTwoDefs false "x" ⟨"a.o", true, false⟩ ⟨"b.o", true, false⟩).2 ≠ 0 := by
  have h := multiple_definition_fatal "x" ⟨"a.o", true, false⟩ ⟨"b.o", true, false⟩
    rfl rfl (by decide) rfl rfl
  exact h

/-! ### C2: resolution determinism -/

/-- Modelled from the spec: one candidate definition of a global symbol —
its binding strength (`rank`, ordered by §4.4 rule 1: defined strong beats
weak beats common beats undefined), the command-line priority of the
providing file (its position; two distinct files never share one), and the
file id. -/
structure Candidate where
  rank : Nat
  priority : Nat
  file : Nat
  deriving DecidableEq

/-- Modelled from the spec, §5: "every CAS compares priorities and loses
deterministically" — the incoming definition replaces the current owner
exactly when it has strictly greater binding strength, or equal strength
and an earlier (smaller) command-line priority. -/
def betterSym (cur incoming : Candidate) : Candidate :=
  if cur.rank < incoming.rank then incoming
  else if incoming.rank < cur.rank then cur
  else if incoming.priority < cur.priority then incoming
  else cur

/-- Modelled from the spec: the owner a symbol slot ends up with after the
candidates arrive in some order — the fold of the CAS update. -/
def resolveOwner (first : Candidate) (arrivals : List Candidate) : Candidate :=
  arrivals.foldl betterSym first

/-- Modelled from the spec, §4.11 and §8: in deterministic mode the output
image is a function of the resolved owners alone (all later passes are
stage-barrier ordered and schedule-independent); serialisation of one
owner record. -/
def ownerImage (owner : Candidate) : List Nat :=
  [owner.file, owner.rank, owner.priority]

/-- `r` is at least as strong an owner as `c`. -/
def ownerLE (c r : Candidate) : Prop :=
  c.rank < r.rank ∨ (c.rank = r.rank ∧ r.priority ≤ c.priority)

theorem ownerLE_refl (c : Candidate) : ownerLE c c := Or.inr ⟨rfl, le_refl _⟩

theorem ownerLE_trans (a b c : Candidate) (h1 : ownerLE a b) (h2 : ownerLE b c) :
    ownerLE a c := by
  unfold ownerLE at h1 h2 ⊢
  omega

theorem betterSym_le_left (cur inc : Candidate) : ownerLE cur (betterSym cur inc) := by
  unfold betterSym ownerLE
  split
  · omega
  · split
    · omega
    · split <;> omega

theorem betterSym_le_right (cur inc : Candidate) : ownerLE inc (betterSym cur inc) := by
  unfold betterSym ownerLE
  split
  · omega
  · split
    · omega
    · split <;> omega

theorem resolveOwner_mem (first : Candidate) :
    ∀ (arrivals : List Candidate), resolveOwner first arrivals ∈ first :: arrivals := by
  intro arrivals
  induction arrivals generalizing first with
  | nil => exact List.mem_cons_self _ _
  | cons a l ih =>
    show resolveOwner (betterSym first a) l ∈ first :: a :: l
    have h := ih (betterSym first a)
    rcases List.mem_cons.mp h with heq | hmem
    · rw [heq]
      unfold betterSym
      split
      · exact List.mem_cons_of_mem _ (List.mem_cons_self _ _)
      · split
        · exact List.mem_cons_self _ _
        · split
          · exact List.mem_cons_of_mem _ (List.mem_cons_self _ _)
          · exact List.mem_cons_self _ _
    · exact List.mem_cons_of_mem _ (List.mem_cons_of_mem _ hmem)

theorem resolveOwner_ge (first : Candidate) :
    ∀ (arrivals : List Candidate) (c : Candidate), c ∈ first :: arrivals →
      ownerLE c (resolveOwner first arrivals) := by
  intro arrivals
  induction arrivals generalizing first with
  | nil =>
    intro c hc
    rw [List.mem_singleton] at hc
    rw [hc]
    exact ownerLE_refl _
  | cons a l ih =>
    intro c hc
    show ownerLE c (resolveOwner (betterSym first a) l)
    have hhead : ownerLE (betterSym first a) (resolveOwner (betterSym first a) l) :=
      ih (betterSym first a) _ (List.mem_cons_self _ _)
    rcases List.mem_cons.mp hc with hceq | hc
    · rw [hceq]
      exact ownerLE_trans _ _ _ (betterSym_le_left first a) hhead
    · rcases List.mem_cons.mp hc with hceq | hc
      · rw [hceq]
        exact ownerLE_trans _ _ _ (betterSym_le_right first a) hhead
      · exact ih (betterSym first a) c (List.mem_cons_of_mem _ hc)

theorem owner_unique (L : List Candidate) (r1 r2 : Candidate)
    (h1 : r1 ∈ L) (h2 : r2 ∈ L)
    (hmax1 : ∀ c ∈ L, ownerLE c r1) (hmax2 : ∀ c ∈ L, ownerLE c r2)
    (hinj : ∀ x ∈ L, ∀ y ∈ L, x.priority = y.priority → x = y) : r1 = r2 := by
  have h12 : ownerLE r1 r2 := hmax2 r1 h1
  have h21 : ownerLE r2 r1 := hmax1 r2 h2
  have hpr : r1.priority = r2.priority := by
    unfold ownerLE at h12 h21
    omega
  exact hinj r1 h1 r2 h2 hpr

/-- C2: the link resolution is deterministic — for a fixed command line
(fixed per-file priorities), the owner chosen for a global symbol is the
same whatever order the parallel workers feed the candidates to the CAS
loop, and consequently the deterministic-mode image bytes derived from the
owners are identical across schedules. -/
theorem resolution_deterministic :
    (∀ (first : Candidate) (arrivals arrivals' : List Candidate),
      arrivals.Perm arrivals' →
      (∀ x ∈ first :: arrivals, ∀ y ∈ first :: arrivals,
        x.priority = y.priority → x = y) →
      resolveOwner first arrivals = resolveOwner first arrivals') ∧
    (∀ (first : Candidate) (arrivals arrivals' : List Candidate),
      arrivals.Perm arrivals' →
      (∀ x ∈ first :: arrivals, ∀ y ∈ first :: arrivals,
        x.priority = y.priority → x = y) →
      ownerImage (resolveOwner first arrivals) =
        ownerImage (resolveOwner first arrivals')) := by
  have hmain : ∀ (first : Candidate) (arrivals arrivals' : List Candidate),
      arrivals.Perm arrivals' →
      (∀ x ∈ first :: arrivals, ∀ y ∈ first :: arrivals,
        x.priority = y.priority → x = y) →
      resolveOwner first arrivals = resolveOwner first arrivals' := by
    intro first arrivals arrivals' hperm hinj
    have hperm' : (first :: arrivals).Perm (first :: arrivals') :=
      List.Perm.cons first hperm
    apply owner_unique (first :: arrivals) _ _
      (resolveOwner_mem first arrivals)
      (hperm'.mem_iff.mpr (resolveOwner_mem first arrivals'))
      (resolveOwner_ge first arrivals)
      (fun c hc => resolveOwner_ge first arrivals' c (hperm'.mem_iff.mp hc))
      hinj
  exact ⟨hmain, fun first a a' hp hi => by rw [hmain first a a' hp hi]⟩

/-- Witness for C2: a strong definition from priority 2 and a weak one from
priority 1, arriving in either order, resolve to the same owner. -/
theorem resolution_deterministic_witness :
    resolveOwner ⟨0, 0, 0⟩ [⟨3, 2, 1⟩, ⟨2, 1, 2⟩] =
      resolveOwner ⟨0, 0, 0⟩ [⟨2, 1, 2⟩, ⟨3, 2, 1⟩] :=
  resolution_deterministic.1 ⟨0, 0, 0⟩ [⟨3, 2, 1⟩, ⟨2, 1, 2⟩]
    [⟨2, 1, 2⟩, ⟨3, 2, 1⟩] (List.Perm.swap _ _ _) (by decide)

/-! ### C3: garbage collection of sections -/

/-- Modelled from the spec, §4.5: the edges of the section reference graph —
"relocations from section S to symbol K add S → defining-section(K)";
`targets i` lists the defining sections of the targets of section `i`'s
relocations.  One mark sweep appends every not-yet-marked section that some
marked section references. -/
def gcNew (targets : Nat → List Nat) (univ marked : List Nat) : List Nat :=
  univ.filter (fun t => decide (t ∉ marked) &&
    marked.any (fun s0 => (targets s0).contains t))

def gcStep (targets : Nat → List Nat) (univ : List Nat) (marked : List Nat) :
    List Nat :=
  marked ++ gcNew targets univ marked

/-- Modelled from the spec: the mark pass iterated to its fixpoint starting
from the roots (entry symbol's section, `--undefined` symbols, exported
dynamic symbols, `KEEP` patterns). -/
def gcMark (targets : Nat → List Nat) (univ roots : List Nat) : List Nat :=
  (gcStep targets univ)^[univ.length + 1] roots

theorem gcStep_invariants (targets : Nat → List Nat) (univ : List Nat)
    (hu : univ.Nodup) (X : List Nat) (hX : X.Nodup) (hXu : X ⊆ univ) :
    (gcStep targets univ X).Nodup ∧ gcStep targets univ X ⊆ univ := by
  constructor
  · rw [gcStep, List.nodup_append]
    refine ⟨hX, List.Nodup.filter _ hu, ?_⟩
    intro a ha hb
    rw [gcNew, List.mem_filter] at hb
    have := hb.2
    simp at this
    exact this.1 ha
  · intro a ha
    rcases List.mem_append.mp ha with ha | ha
    · exact hXu ha
    · rw [gcNew, List.mem_filter] at ha
      exact ha.1

theorem gcMark_fixpoint (targets : Nat → List Nat) (univ roots : List Nat)
    (hu : univ.Nodup) (hr : roots.Nodup) (hru : roots ⊆ univ) :
    gcStep targets univ (gcMark targets univ roots) =
      gcMark targets univ roots :=
  sweep_reaches_fixpoint (gcStep targets univ) univ
    (fun X => ⟨gcNew targets univ X, rfl⟩)
    (gcStep_invariants targets univ hu) roots hr hru

/-- C3: garbage collection is sound — no live (marked) section references a
dead one, marking is monotone (a section reachable from a root stays
marked through every later sweep), and on the concrete scenario of an
object defining an unreferenced `foo` and `main`, the output contains
neither `.text.foo` nor the symbol `foo`. -/
theorem gc_sections_sound :
    (∀ (targets : Nat → List Nat) (univ roots : List Nat),
      univ.Nodup → roots.Nodup → roots ⊆ univ →
      ∀ d ∈ univ, d ∉ gcMark targets univ roots →
        ∀ s0 ∈ gcMark targets univ roots, d ∉ targets s0) ∧
    (∀ (targets : Nat → List Nat) (univ roots : List Nat) (k j : Nat), k ≤ j →
      (gcStep targets univ)^[k] roots ⊆ (gcStep targets univ)^[j] roots) ∧
    (gcMark (fun _ => []) [0, 1] [0] = [0] ∧
     ([0, 1].filter (fun i => (gcMark (fun _ => []) [0, 1] [0]).contains i)).map
        (fun i => if i = 0 then ".text.main" else ".text.foo") = [".text.main"] ∧
     ([0, 1].filter (fun i => (gcMark (fun _ => []) [0, 1] [0]).contains i)).map
        (fun i => if i = 0 then "main" else "foo") = ["main"]) := by
  refine ⟨?_, ?_, by decide, by decide, by decide⟩
  · intro targets univ roots hu hr hru d hd hdead s0 hs0 htarget
    have hfix := gcMark_fixpoint targets univ roots hu hr hru
    have hnew : gcNew targets univ (gcMark targets univ roots) = [] := by
      have h1 : gcMark targets univ roots ++
          gcNew targets univ (gcMark targets univ roots) =
          gcMark targets univ roots ++ [] := by
        rw [List.append_nil]
        exact hfix
      exact List.append_cancel_left h1
    have hmem : d ∈ gcNew targets univ (gcMark targets univ roots) := by
      rw [gcNew, List.mem_filter]
      refine ⟨hd, ?_⟩
      rw [Bool.and_eq_true]
      refine ⟨by simpa using hdead, ?_⟩
      rw [List.any_eq_true]
      exact ⟨s0, hs0, by simpa using htarget⟩
    rw [hnew] at hmem
    exact absurd hmem (by simp)
  · intro targets univ roots k j hkj
    exact sweep_monotone (gcStep targets univ)
      (fun X => ⟨gcNew targets univ X, rfl⟩) roots k j hkj

/-- Witness for C3: the soundness component applied to the concrete
two-section graph — section 1 (`.text.foo`) is dead, section 0 is live,
and 1 is not a relocation target of 0. -/
theorem gc_sections_sound_witness :
    [0, 1].Nodup ∧ [0].Nodup ∧ [0] ⊆ [0, 1] ∧ (1 : Nat) ∈ [0, 1] ∧
    (1 : Nat) ∉ gcMark (fun _ => []) [0, 1] [0] ∧
    (0 : Nat) ∈ gcMark (fun _ => []) [0, 1] [0] ∧
    (1 : Nat) ∉ (fun (_ : Nat) => ([] : List Nat)) 0 :=
  ⟨by decide, by decide, by decide, by decide, by decide, by decide,
   gc_sections_sound.1 (fun _ => []) [0, 1] [0] (by decide) (by decide)
     (by decide) 1 (by decide) (by decide) 0 (by decide)⟩

/-! ### C4: archive member extraction -/

/-- Modelled from the spec, §4.3: an archive member with the globals it
defines and the globals it references. -/
structure Member where
  archive : String
  name : String
  defs : List String
  refs : List String
  deriving DecidableEq

/-- Modelled from the spec: the worklist of undefined globals — every
symbol referenced by the root objects or an included member and defined by
no included member. -/
def undefinedSyms (rootRefs : List String) (included : List Member) :
    List String :=
  (rootRefs ++ included.flatMap Member.refs).filter
    (fun s0 => !(included.any (fun m => m.defs.contains s0)))

/-- Modelled from the spec: one sweep — "for every archive, include any
member defining an element of the worklist; update the worklist from the
newly included members". -/
def archiveSweep (members : List Member) (rootRefs : List String)
    (included : List Member) : List Member :=
  included ++ members.filter (fun m => decide (m ∉ included) &&
    (undefinedSyms rootRefs included).any (fun s0 => m.defs.contains s0))

/-- Modelled from the spec: "repeat until a sweep adds no files" — the
sweep can only add members, so `members.length + 1` iterations reach the
fixpoint. -/
def extractMembers (members : List Member) (rootRefs : List String) :
    List Member :=
  (archiveSweep members rootRefs)^[members.length + 1] []

theorem archiveSweep_invariants (members : List Member) (rootRefs : List String)
    (hm : members.Nodup) (X : List Member) (hX : X.Nodup) (hXm : X ⊆ members) :
    (archiveSweep members rootRefs X).Nodup ∧
      archiveSweep members rootRefs X ⊆ members := by
  constructor
  · rw [archiveSweep, List.nodup_append]
    refine ⟨hX, List.Nodup.filter _ hm, ?_⟩
    intro a ha hb
    rw [List.mem_filter] at hb
    have := hb.2
    simp at this
    exact this.1 ha
  · intro a ha
    rcases List.mem_append.mp ha with ha | ha
    · exact hXm ha
    · exact (List.mem_filter.mp ha).1

/-- The mutually recursive archives of the spec's scenario 1. -/
def memA : Member := ⟨"a.a", "a1.o", ["f"], ["g"]⟩

def memB : Member := ⟨"b.a", "b1.o", ["g"], ["f"]⟩

/-- C4: archive extraction runs the worklist sweep to a fixpoint — after
the iterated sweep, one more sweep adds no files; and on the mutually
recursive scenario (`a.a` defines `f` references `g`, `b.a` defines `g`
references `f`, `main.o` references `f`) both members are pulled in and
each of `f` and `g` is defined exactly once. -/
theorem archive_extraction_fixpoint :
    (∀ (members : List Member) (rootRefs : List String), members.Nodup →
      archiveSweep members rootRefs (extractMembers members rootRefs) =
        extractMembers members rootRefs) ∧
    (extractMembers [memA, memB] ["f"] = [memA, memB] ∧
     (extractMembers [memA, memB] ["f"]).countP
        (fun m => m.defs.contains "f") = 1 ∧
     (extractMembers [memA, memB] ["f"]).countP
        (fun m => m.defs.contains "g") = 1) := by
  refine ⟨?_, by decide, by decide, by decide⟩
  intro members rootRefs hm
  exact sweep_reaches_fixpoint (archiveSweep members rootRefs) members
    (fun X => ⟨_, rfl⟩)
    (archiveSweep_invariants members rootRefs hm)
    [] List.nodup_nil (by intro a ha; exact absurd ha (by simp))

/-- Witness for C4: the fixpoint component evaluated on the two mutually
recursive archives. -/
theorem archive_extraction_fixpoint_witness :
    [memA, memB].Nodup ∧
    archiveSweep [memA, memB] ["f"] (extractMembers [memA, memB] ["f"]) =
      extractMembers [memA, memB] ["f"] :=
  ⟨by decide, archive_extraction_fixpoint.1 [memA, memB] ["f"] (by decide)⟩

/-! ### C7: version scripts -/

/-- Modelled from the spec: glob matching of version-script patterns —
`*` matches any (possibly empty) run of characters, every other character
matches itself. -/
def globMatch : List Char → List Char → Bool
  | [], s0 => s0.isEmpty
  | '*' :: ps, s0 => s0.tails.any (fun t => globMatch ps t)
  | p :: ps, s0 =>
    match s0 with
    | [] => false
    | c :: cs => p == c && globMatch ps cs

/-- Modelled from the spec, scenario 2: under a version script a defined
symbol goes to the dynamic symbol table at the script's version when it
matches a `global:` pattern; a `local:` pattern other than the bare `*`
overrides a bare `global: *` ("the `local: b*` pattern overrides the
`global: *` pattern for names starting with `b`"). -/
def vsExported (globals locals : List (List Char)) (name : List Char) : Bool :=
  if locals.any (fun p => !(p == ['*']) && globMatch p name) then false
  else if globals.any (fun p => !(p == ['*']) && globMatch p name) then true
  else if globals.any (fun p => p == ['*'] && globMatch p name) then
    !(locals.any (fun p => p == ['*'] && globMatch p name))
  else false

/-- Modelled from the spec: the dynamic symbol table of a `-shared` link —
the exported defined symbols, each at the script's version
(`name@@VERSION`). -/
def dynsym (globals locals : List (List Char)) (ver : String)
    (defs : List String) : List (String × String) :=
  (defs.filter (fun n => vsExported globals locals n.toList)).map
    (fun n => (n, ver))

theorem globMatch_nil_empty : globMatch [] [] = true := rfl

theorem globMatch_star (s0 : List Char) : globMatch ['*'] s0 = true := by
  show s0.tails.any (fun t => globMatch [] t) = true
  rw [List.any_eq_true]
  refine ⟨[], ?_, globMatch_nil_empty⟩
  rw [List.mem_tails]
  exact List.nil_suffix

theorem globMatch_bstar (cs : List Char) :
    globMatch ['b', '*'] ('b' :: cs) = true := by
  simp [globMatch, globMatch_star]

/-- C7: with version script `VER_X1 { global: *; local: b*; };` and
`-shared` output, an input defining `foo`, `bar`, `baz` exports exactly
`foo@@VER_X1`; neither `bar` nor `baz` reaches the dynamic symbol table,
because the `local: b*` pattern overrides `global: *` for every name
starting with `b`. -/
theorem version_script_local_overrides :
    dynsym [['*']] [['b', '*']] "VER_X1" ["foo", "bar", "baz"] =
      [("foo", "VER_X1")] ∧
    (∀ p ∈ dynsym [['*']] [['b', '*']] "VER_X1" ["foo", "bar", "baz"],
      p.1 ≠ "bar" ∧ p.1 ≠ "baz") ∧
    (∀ name : List Char, name.head? = some 'b' →
      vsExported [['*']] [['b', '*']] name = false) := by
  refine ⟨by decide, by decide, ?_⟩
  intro name hname
  cases name with
  | nil => exact absurd hname (by simp)
  | cons c cs =>
    simp at hname
    subst hname
    have hmatch : globMatch ['b', '*'] ('b' :: cs) = true := globMatch_bstar cs
    unfold vsExported
    rw [if_pos]
    rw [List.any_eq_true]
    exact ⟨['b', '*'], by simp, by rw [Bool.and_eq_true]; exact ⟨by decide, hmatch⟩⟩

/-- Witness for C7: the override component applied to `bar`. -/
theorem version_script_local_overrides_witness :
    ("bar".toList).head? = some 'b' ∧
    vsExported [['*']] [['b', '*']] "bar".toList = false :=
  ⟨by decide, version_script_local_overrides.2.2 "bar".toList (by decide)⟩

/-! ### C8: ARM32 range-extension thunks -/

/-- Modelled from the spec, §4.9: the reach of a direct ARM32 B/BL branch —
a signed 24-bit word offset, ±32 MiB. -/
def ARM32_BRANCH_REACH : Nat := 2 ^ 25

def branchDisplacement (src dst : Nat) : Nat := max src dst - min src dst

/-- Modelled from the spec: "when a branch's displacement would overflow,
synthesize a `Thunk` near the caller and redirect the relocation to it". -/
def needsThunk (src dst : Nat) : Bool :=
  decide (ARM32_BRANCH_REACH ≤ branchDisplacement src dst)

/-- A synthesized range-extension stub. -/
structure BranchThunk where
  addr : Nat
  target : Nat
  insns : List String
  deriving DecidableEq

/-- The canonical ARM32 long-branch sequence the test disassembles:
`bx pc` followed by `add pc, ip, pc`. -/
def armLongBranch : List String := ["bx pc", "add pc, ip, pc"]

/-- Modelled from the spec: the thunk is placed near the caller (at a small
fixed distance from the call site) and carries the far target. -/
def synthesizeThunk (callSite target : Nat) : BranchThunk :=
  { addr := callSite + 8, target := target, insns := armLongBranch }

/-- Modelled from the spec: resolving one branch relocation — the branch
is left direct when the target is in reach, otherwise it is redirected to
a fresh thunk. -/
def resolveBranch (callSite target : Nat) : Nat × Option BranchThunk :=
  if needsThunk callSite target then
    (callSite + 8, some (synthesizeThunk callSite target))
  else
    (target, none)

/-- The address control finally reaches: through the thunk when one was
inserted, directly otherwise. -/
def finalTarget (callSite target : Nat) : Nat :=
  match (resolveBranch callSite target).2 with
  | some th => th.target
  | none => (resolveBranch callSite target).1

/-- C8: for the two ARM32 functions at `0x10000000` and `0x20000000`
calling each other, each call's displacement exceeds the direct-branch
reach, so each call site gets its own thunk carrying the canonical
`bx pc` / `add pc, ip, pc` sequence; the redirected branch is within
reach of its caller, and control still arrives at the intended callee
(so the linked program behaves as before and prints its output).
The general clause covers every out-of-reach branch. -/
theorem arm32_thunk_synthesis :
    (∀ src dst : Nat, needsThunk src dst = true →
      (resolveBranch src dst).2 = some (synthesizeThunk src dst) ∧
      (synthesizeThunk src dst).insns = armLongBranch ∧
      branchDisplacement src (resolveBranch src dst).1 < ARM32_BRANCH_REACH ∧
      finalTarget src dst = dst) ∧
    (needsThunk 0x10000000 0x20000000 = true ∧
     needsThunk 0x20000000 0x10000000 = true ∧
     (synthesizeThunk 0x10000000 0x20000000).addr ≠
       (synthesizeThunk 0x20000000 0x10000000).addr ∧
     finalTarget 0x10000000 0x20000000 = 0x20000000 ∧
     finalTarget 0x20000000 0x10000000 = 0x10000000) := by
  refine ⟨?_, by decide, by decide, by decide, by decide, by decide⟩
  intro src dst h
  refine ⟨?_, rfl, ?_, ?_⟩
  · rw [resolveBranch, if_pos h]
  · rw [resolveBranch, if_pos h]
    show branchDisplacement src (src + 8) < ARM32_BRANCH_REACH
    unfold branchDisplacement ARM32_BRANCH_REACH
    have h8 : max src (src + 8) - min src (src + 8) = 8 := by omega
    rw [h8]
    norm_num
  · unfold finalTarget
    rw [resolveBranch, if_pos h]
    rfl

/-- Witness for C8: the general clause applied to the two concrete call
sites of the scenario. -/
theorem arm32_thunk_synthesis_witness :
    needsThunk 0x10000000 0x20000000 = true ∧
    (resolveBranch 0x10000000 0x20000000).2 =
      some (synthesizeThunk 0x10000000 0x20000000) ∧
    finalTarget 0x10000000 0x20000000 = 0x20000000 := by
  have h := arm32_thunk_synthesis.1 0x10000000 0x20000000 (by decide)
  exact ⟨by decide, h.1, h.2.2.2⟩

/-! ### C1: relocatable round trip -/

/-- Modelled from the spec: a relocatable object as the round-trip property
observes it — its sections (name and bytes), its defined globals, and the
globals it references. -/
structure ObjFile where
  sections : List (String × List Nat)
  defs : List (String × Nat)
  refs : List String
  deriving DecidableEq

/-- Modelled from the spec, §6 `-r` and §8 round-trip: a relocatable link
combines the inputs into one relocatable — sections and symbol definitions
are concatenated, and exactly the references no input defines stay
unresolved. -/
def linkRelocatable (objs : List ObjFile) : ObjFile :=
  { sections := objs.flatMap ObjFile.sections
    defs := objs.flatMap ObjFile.defs
    refs := (objs.flatMap ObjFile.refs).filter
      (fun s0 => !(objs.flatMap ObjFile.defs).any (fun d => d.1 == s0)) }

/-- Modelled from the spec: the observable behaviour of the executable
built from a set of objects — its laid-out sections, its resolved symbol
table and its unresolved references determine what the program does. -/
structure ExeImage where
  sections : List (String × List Nat)
  symtab : List (String × Nat)
  unresolved : List String
  deriving DecidableEq

def linkExecutable (objs : List ObjFile) : ExeImage :=
  { sections := objs.flatMap ObjFile.sections
    symtab := objs.flatMap ObjFile.defs
    unresolved := (objs.flatMap ObjFile.refs).filter
      (fun s0 => !(objs.flatMap ObjFile.defs).any (fun d => d.1 == s0)) }

/-- C1: linking `a.o b.o` with `-r` into `c.o` and then linking `c.o` into
an executable yields the same observable image as linking `a.o b.o`
directly — for any list of inputs. -/
theorem relocatable_round_trip (objs : List ObjFile) :
    linkExecutable [linkRelocatable objs] = linkExecutable objs := by
  unfold linkExecutable linkRelocatable
  simp [List.filter_filter]

end Mold
